import Mathlib

/-!
Verification development for the embroidery-filter image pipeline.

Rasters are row-major lists (index `i = y * w + x`); JS typed-array reads
`a[i] ?? d` become `List.getD`.  Machine floats are modelled by exact
rationals (the Chamfer diagonal cost 1.4 is `7/5`); the float `Infinity`
sentinels are modelled by rationals larger than any value the code can
produce.
-/

namespace EmbroideryFilter

/-- Guarded relaxation `if g then min b v else b`, the shape of every
neighbour term in the two Chamfer passes of `distanceTransform`. -/
def mcand (b : ℚ) (g : Prop) [Decidable g] (v : ℚ) : ℚ :=
  if g then min b v else b

theorem mcand_le_base (b : ℚ) (g : Prop) [Decidable g] (v : ℚ) :
    mcand b g v ≤ b := by
  unfold mcand
  split
  · exact min_le_left _ _
  · exact le_refl _

theorem mcand_le_val (b : ℚ) (g : Prop) [Decidable g] (v : ℚ) (hg : g) :
    mcand b g v ≤ v := by
  unfold mcand
  rw [if_pos hg]
  exact min_le_right _ _

theorem le_mcand (c b : ℚ) (g : Prop) [Decidable g] (v : ℚ)
    (hb : c ≤ b) (hv : g → c ≤ v) : c ≤ mcand b g v := by
  unfold mcand
  split
  · exact le_min hb (hv (by assumption))
  · exact hb

theorem mcand_cases (b : ℚ) (g : Prop) [Decidable g] (v : ℚ) :
    mcand b g v = b ∨ (g ∧ mcand b g v = v) := by
  unfold mcand
  split
  · rcases min_choice b v with h | h
    · exact Or.inl h
    · exact Or.inr ⟨by assumption, h⟩
  · exact Or.inl rfl

/-- The sentinel `inf = 1e9` used by `distanceTransform` in edges.ts. -/
def dtInf : ℚ := 1000000000

/-- Row-major index of pixel `(x, y)` in a raster of width `w`. -/
def idx (w x y : Nat) : Nat := y * w + x

/-- Initial distance field: pixels with `src[i] > 0` get 0, others `inf`
(`dist[i] = (src[i] ?? 0) > 0 ? 0 : inf`). -/
def dtInit (src : List Nat) (w h : Nat) : List ℚ :=
  (List.range (w * h)).map (fun i => if 0 < src.getD i 0 then (0 : ℚ) else dtInf)

/-- One forward-pass relaxation at index `i` (`x = i % w`, `y = i / w`):
neighbours `(-1,0)`, `(0,-1)`, `(-1,-1)`, `(+1,-1)` with costs 1, 1, 1.4, 1.4. -/
def fwdStep (w : Nat) (d : List ℚ) (i : Nat) : ℚ :=
  mcand (mcand (mcand (mcand (d.getD i dtInf)
    (0 < i % w) (d.getD (i - 1) dtInf + 1))
    (0 < i / w) (d.getD (i - w) dtInf + 1))
    (0 < i % w ∧ 0 < i / w) (d.getD (i - w - 1) dtInf + 7/5))
    (i % w + 1 < w ∧ 0 < i / w) (d.getD (i - w + 1) dtInf + 7/5)

/-- Forward pass after processing indices `0, …, k-1` in scan order. -/
def fwdScan (w : Nat) : Nat → List ℚ → List ℚ
  | 0, d => d
  | k + 1, d =>
    let d' := fwdScan w k d
    d'.set k (fwdStep w d' k)

/-- One backward-pass relaxation at index `i`: neighbours `(+1,0)`,
`(0,+1)`, `(+1,+1)`, `(-1,+1)` with costs 1, 1, 1.4, 1.4
(its current value is read as `dist[i] ?? 0`). -/
def bwdStep (w h : Nat) (d : List ℚ) (i : Nat) : ℚ :=
  mcand (mcand (mcand (mcand (d.getD i 0)
    (i % w + 1 < w) (d.getD (i + 1) dtInf + 1))
    (i / w + 1 < h) (d.getD (i + w) dtInf + 1))
    (i % w + 1 < w ∧ i / w + 1 < h) (d.getD (i + w + 1) dtInf + 7/5))
    (0 < i % w ∧ i / w + 1 < h) (d.getD (i + w - 1) dtInf + 7/5)

/-- Backward pass after processing the top `k` indices
`n-1, n-2, …, n-k` (where `n = w*h`). -/
def bwdScan (w h : Nat) : Nat → List ℚ → List ℚ
  | 0, d => d
  | k + 1, d =>
    let d' := bwdScan w h k d
    d'.set (w * h - (k + 1)) (bwdStep w h d' (w * h - (k + 1)))

/-- State of the distance field after the complete forward pass. -/
def dtF (src : List Nat) (w h : Nat) : List ℚ :=
  fwdScan w (w * h) (dtInit src w h)

/-- Two-pass Chamfer distance transform of edges.ts
(orthogonal cost 1, diagonal cost 1.4). -/
def distanceTransform (src : List Nat) (w h : Nat) : List ℚ :=
  bwdScan w h (w * h) (dtF src w h)

theorem dtInit_length (src : List Nat) (w h : Nat) :
    (dtInit src w h).length = w * h := by
  simp [dtInit]

theorem fwdScan_length (w k : Nat) (d : List ℚ) :
    (fwdScan w k d).length = d.length := by
  induction k with
  | zero => rfl
  | succ k ih => simp [fwdScan, ih]

theorem bwdScan_length (w h k : Nat) (d : List ℚ) :
    (bwdScan w h k d).length = d.length := by
  induction k with
  | zero => rfl
  | succ k ih => simp [bwdScan, ih]

theorem getD_set_ne (l : List ℚ) (i j : Nat) (a v : ℚ) (h : i ≠ j) :
    (l.set i a).getD j v = l.getD j v := by
  simp [List.getD, List.getElem?_set_ne h]

theorem getD_set_eq (l : List ℚ) (i : Nat) (a v : ℚ) (h : i < l.length) :
    (l.set i a).getD i v = a := by
  simp [List.getD, List.getElem?_set_self, h]

theorem getD_default_eq (l : List ℚ) (i : Nat) (h : i < l.length) (v₁ v₂ : ℚ) :
    l.getD i v₁ = l.getD i v₂ := by
  rw [List.getD_eq_getElem l v₁ h, List.getD_eq_getElem l v₂ h]

theorem fwdScan_succ (w k : Nat) (d : List ℚ) :
    fwdScan w (k + 1) d = (fwdScan w k d).set k (fwdStep w (fwdScan w k d) k) := rfl

theorem bwdScan_succ (w h k : Nat) (d : List ℚ) :
    bwdScan w h (k + 1) d
      = (bwdScan w h k d).set (w * h - (k + 1))
          (bwdStep w h (bwdScan w h k d) (w * h - (k + 1))) := rfl

/-- Indices not yet processed by the forward pass still hold their
initial value. -/
theorem fwdScan_getD_of_le (w : Nat) (d : List ℚ) :
    ∀ k j (v : ℚ), k ≤ j → (fwdScan w k d).getD j v = d.getD j v := by
  intro k
  induction k with
  | zero => intro j v _; rfl
  | succ k ih =>
    intro j v h
    rw [fwdScan_succ, getD_set_ne _ _ _ _ _ (by omega), ih j v (by omega)]

/-- Once the forward pass has processed index `j`, its value is frozen. -/
theorem fwdScan_getD_of_lt (w : Nat) (d : List ℚ) :
    ∀ k j (v : ℚ), j < k →
      (fwdScan w k d).getD j v = (fwdScan w (j + 1) d).getD j v := by
  intro k
  induction k with
  | zero => intro j v h; exact absurd h (Nat.not_lt_zero j)
  | succ k ih =>
    intro j v h
    rcases Nat.lt_or_ge j k with hjk | hjk
    · rw [fwdScan_succ, getD_set_ne _ _ _ _ _ (by omega), ih j v hjk]
    · have hjeq : j = k := by omega
      subst hjeq
      rfl

/-- The final forward value at `j` is the relaxation computed from the
state the scan had when it reached `j`. -/
theorem fwdScan_getD_final (w n : Nat) (d : List ℚ) (j : Nat) (v : ℚ)
    (hj : j < n) (hlen : j < d.length) :
    (fwdScan w n d).getD j v = fwdStep w (fwdScan w j d) j := by
  rw [fwdScan_getD_of_lt w d n j v hj, fwdScan_succ]
  exact getD_set_eq _ _ _ _ (by rw [fwdScan_length]; exact hlen)

/-- While the forward scan sits at index `i`, all earlier indices already
hold their final values. -/
theorem fwdScan_getD_earlier (w n : Nat) (d : List ℚ) (i j : Nat) (v : ℚ)
    (hji : j < i) (hin : i ≤ n) :
    (fwdScan w i d).getD j v = (fwdScan w n d).getD j v := by
  rcases Nat.lt_or_ge j n with hjn | hjn
  · rw [fwdScan_getD_of_lt w d i j v hji, fwdScan_getD_of_lt w d n j v hjn]
  · exact absurd (Nat.lt_of_lt_of_le hji hin) (Nat.not_lt_of_ge hjn)

/-- Indices below `n - k` have not been touched by the backward pass. -/
theorem bwdScan_getD_of_lt (w h : Nat) (d : List ℚ) :
    ∀ k j (v : ℚ), j < w * h - k → (bwdScan w h k d).getD j v = d.getD j v := by
  intro k
  induction k with
  | zero => intro j v _; rfl
  | succ k ih =>
    intro j v hj
    rw [bwdScan_succ, getD_set_ne _ _ _ _ _ (by omega), ih j v (by omega)]

/-- Once the backward pass has processed index `j`, its value is frozen. -/
theorem bwdScan_getD_frozen (w h : Nat) (d : List ℚ) :
    ∀ k, k ≤ w * h → ∀ j (v : ℚ), j < w * h → w * h - k ≤ j →
      (bwdScan w h k d).getD j v = (bwdScan w h (w * h - j) d).getD j v := by
  intro k
  induction k with
  | zero => intro _ j v hjn hj; omega
  | succ k ih =>
    intro hkn j v hjn hj
    rcases Nat.lt_or_ge j (w * h - k) with hjk | hjk
    · have hje : w * h - j = k + 1 := by omega
      rw [hje]
    · rw [bwdScan_succ, getD_set_ne _ _ _ _ _ (by omega),
        ih (by omega) j v hjn hjk]

/-- The final backward value at `i` is the relaxation computed from the
state the backward scan had when it reached `i`. -/
theorem bwdScan_getD_final (w h : Nat) (d : List ℚ) (i : Nat) (v : ℚ)
    (hi : i < w * h) (hlen : i < d.length) :
    (bwdScan w h (w * h) d).getD i v
      = bwdStep w h (bwdScan w h (w * h - i - 1) d) i := by
  have h1 : (bwdScan w h (w * h) d).getD i v = (bwdScan w h (w * h - i) d).getD i v :=
    bwdScan_getD_frozen w h d (w * h) (le_refl _) i v hi (by omega)
  have h2 : w * h - i = (w * h - i - 1) + 1 := by omega
  rw [h1, h2, bwdScan_succ]
  have h3 : w * h - (w * h - i - 1 + 1) = i := by omega
  rw [h3]
  exact getD_set_eq _ _ _ _ (by rw [bwdScan_length]; exact hlen)

/-- While the backward scan sits at `i`, all later indices already hold
their final values. -/
theorem bwdScan_getD_later (w h : Nat) (d : List ℚ) (i j : Nat) (v : ℚ)
    (hij : i < j) (hjn : j < w * h) :
    (bwdScan w h (w * h - i - 1) d).getD j v = (bwdScan w h (w * h) d).getD j v := by
  rw [bwdScan_getD_frozen w h d (w * h - i - 1) (by omega) j v hjn (by omega),
      bwdScan_getD_frozen w h d (w * h) (le_refl _) j v hjn (by omega)]

/-- While the backward scan sits at `i`, index `i` itself still holds the
forward-pass value. -/
theorem bwdScan_getD_at (w h : Nat) (d : List ℚ) (i : Nat) (v : ℚ)
    (hi : i < w * h) :
    (bwdScan w h (w * h - i - 1) d).getD i v = d.getD i v :=
  bwdScan_getD_of_lt w h d (w * h - i - 1) i v (by omega)

theorem fwdStep_le_cur (w : Nat) (d : List ℚ) (i : Nat) :
    fwdStep w d i ≤ d.getD i dtInf :=
  le_trans (mcand_le_base _ _ _) (le_trans (mcand_le_base _ _ _)
    (le_trans (mcand_le_base _ _ _) (mcand_le_base _ _ _)))

theorem fwdStep_le_left (w : Nat) (d : List ℚ) (i : Nat) (h : 0 < i % w) :
    fwdStep w d i ≤ d.getD (i - 1) dtInf + 1 :=
  le_trans (mcand_le_base _ _ _) (le_trans (mcand_le_base _ _ _)
    (le_trans (mcand_le_base _ _ _) (mcand_le_val _ _ _ h)))

theorem fwdStep_le_up (w : Nat) (d : List ℚ) (i : Nat) (h : 0 < i / w) :
    fwdStep w d i ≤ d.getD (i - w) dtInf + 1 :=
  le_trans (mcand_le_base _ _ _) (le_trans (mcand_le_base _ _ _)
    (mcand_le_val _ _ _ h))

theorem fwdStep_le_ul (w : Nat) (d : List ℚ) (i : Nat)
    (h : 0 < i % w ∧ 0 < i / w) :
    fwdStep w d i ≤ d.getD (i - w - 1) dtInf + 7/5 :=
  le_trans (mcand_le_base _ _ _) (mcand_le_val _ _ _ h)

theorem fwdStep_le_ur (w : Nat) (d : List ℚ) (i : Nat)
    (h : i % w + 1 < w ∧ 0 < i / w) :
    fwdStep w d i ≤ d.getD (i - w + 1) dtInf + 7/5 :=
  mcand_le_val _ _ _ h

theorem bwdStep_le_cur (w h : Nat) (d : List ℚ) (i : Nat) :
    bwdStep w h d i ≤ d.getD i 0 :=
  le_trans (mcand_le_base _ _ _) (le_trans (mcand_le_base _ _ _)
    (le_trans (mcand_le_base _ _ _) (mcand_le_base _ _ _)))

theorem bwdStep_le_right (w h : Nat) (d : List ℚ) (i : Nat)
    (hg : i % w + 1 < w) :
    bwdStep w h d i ≤ d.getD (i + 1) dtInf + 1 :=
  le_trans (mcand_le_base _ _ _) (le_trans (mcand_le_base _ _ _)
    (le_trans (mcand_le_base _ _ _) (mcand_le_val _ _ _ hg)))

theorem bwdStep_le_down (w h : Nat) (d : List ℚ) (i : Nat)
    (hg : i / w + 1 < h) :
    bwdStep w h d i ≤ d.getD (i + w) dtInf + 1 :=
  le_trans (mcand_le_base _ _ _) (le_trans (mcand_le_base _ _ _)
    (mcand_le_val _ _ _ hg))

theorem bwdStep_le_dr (w h : Nat) (d : List ℚ) (i : Nat)
    (hg : i % w + 1 < w ∧ i / w + 1 < h) :
    bwdStep w h d i ≤ d.getD (i + w + 1) dtInf + 7/5 :=
  le_trans (mcand_le_base _ _ _) (mcand_le_val _ _ _ hg)

theorem bwdStep_le_dl (w h : Nat) (d : List ℚ) (i : Nat)
    (hg : 0 < i % w ∧ i / w + 1 < h) :
    bwdStep w h d i ≤ d.getD (i + w - 1) dtInf + 7/5 :=
  mcand_le_val _ _ _ hg

/-- All entries of a distance field are nonnegative. -/
def nonnegL (d : List ℚ) : Prop := ∀ q ∈ d, 0 ≤ q

theorem getD_nonneg (d : List ℚ) (j : Nat) (v : ℚ)
    (hd : nonnegL d) (hv : 0 ≤ v) : 0 ≤ d.getD j v := by
  rcases Nat.lt_or_ge j d.length with hj | hj
  · rw [List.getD_eq_getElem d v hj]
    exact hd _ (List.getElem_mem hj)
  · rw [List.getD_eq_default d v hj]
    exact hv

theorem dtInf_nonneg : (0 : ℚ) ≤ dtInf := by norm_num [dtInf]

theorem one_le_dtInf : (1 : ℚ) ≤ dtInf := by norm_num [dtInf]

theorem fwdStep_nonneg (w : Nat) (d : List ℚ) (i : Nat) (hd : nonnegL d) :
    0 ≤ fwdStep w d i := by
  unfold fwdStep
  refine le_mcand _ _ _ _ (le_mcand _ _ _ _ (le_mcand _ _ _ _ (le_mcand _ _ _ _
    (getD_nonneg _ _ _ hd dtInf_nonneg) ?_) ?_) ?_) ?_ <;>
    intro _ <;>
    exact add_nonneg (getD_nonneg _ _ _ hd dtInf_nonneg) (by norm_num)

theorem bwdStep_nonneg (w h : Nat) (d : List ℚ) (i : Nat) (hd : nonnegL d) :
    0 ≤ bwdStep w h d i := by
  unfold bwdStep
  refine le_mcand _ _ _ _ (le_mcand _ _ _ _ (le_mcand _ _ _ _ (le_mcand _ _ _ _
    (getD_nonneg _ _ _ hd (le_refl 0)) ?_) ?_) ?_) ?_ <;>
    intro _ <;>
    exact add_nonneg (getD_nonneg _ _ _ hd dtInf_nonneg) (by norm_num)

theorem dtInit_nonneg (src : List Nat) (w h : Nat) : nonnegL (dtInit src w h) := by
  intro q hq
  simp only [dtInit, List.mem_map] at hq
  obtain ⟨i, _, hi⟩ := hq
  split at hi
  all_goals rw [← hi]
  all_goals norm_num [dtInf]

theorem fwdScan_nonneg (w k : Nat) (d : List ℚ) (hd : nonnegL d) :
    nonnegL (fwdScan w k d) := by
  induction k with
  | zero => exact hd
  | succ k ih =>
    intro q hq
    rw [fwdScan_succ] at hq
    rcases List.mem_or_eq_of_mem_set hq with hq | hq
    · exact ih _ hq
    · rw [hq]; exact fwdStep_nonneg _ _ _ ih

theorem bwdScan_nonneg (w h k : Nat) (d : List ℚ) (hd : nonnegL d) :
    nonnegL (bwdScan w h k d) := by
  induction k with
  | zero => exact hd
  | succ k ih =>
    intro q hq
    rw [bwdScan_succ] at hq
    rcases List.mem_or_eq_of_mem_set hq with hq | hq
    · exact ih _ hq
    · rw [hq]; exact bwdStep_nonneg _ _ _ _ ih

theorem dtF_nonneg (src : List Nat) (w h : Nat) : nonnegL (dtF src w h) :=
  fwdScan_nonneg _ _ _ (dtInit_nonneg src w h)

theorem distanceTransform_nonneg (src : List Nat) (w h : Nat) :
    nonnegL (distanceTransform src w h) :=
  bwdScan_nonneg _ _ _ _ (dtF_nonneg src w h)

theorem idx_lt (w h x y : Nat) (hx : x < w) (hy : y < h) : idx w x y < w * h := by
  have h1 : idx w x y < (y + 1) * w := by
    unfold idx
    rw [Nat.add_mul, Nat.one_mul]
    omega
  have h2 : (y + 1) * w ≤ h * w := Nat.mul_le_mul_right w hy
  calc idx w x y < (y + 1) * w := h1
    _ ≤ h * w := h2
    _ = w * h := Nat.mul_comm h w

theorem idx_mod (w x y : Nat) (hx : x < w) : idx w x y % w = x := by
  unfold idx
  rw [Nat.mul_comm y w, Nat.mul_add_mod]
  exact Nat.mod_eq_of_lt hx

theorem idx_div (w x y : Nat) (hx : x < w) : idx w x y / w = y := by
  unfold idx
  have hw : 0 < w := Nat.lt_of_le_of_lt (Nat.zero_le x) hx
  rw [Nat.add_comm, Nat.mul_comm, Nat.add_mul_div_left x y hw,
    Nat.div_eq_of_lt hx, Nat.zero_add]

theorem idx_succ_x (w x y : Nat) : idx w (x + 1) y = idx w x y + 1 := by
  unfold idx; ring

theorem idx_succ_y (w x y : Nat) : idx w x (y + 1) = idx w x y + w := by
  unfold idx; ring

theorem idx_succ_xy (w x y : Nat) : idx w (x + 1) (y + 1) = idx w x y + w + 1 := by
  unfold idx; ring

/-- Value of the forward pass at a raster index. -/
def dtFv (src : List Nat) (w h i : Nat) : ℚ := (dtF src w h).getD i 0

/-- Value of the finished distance transform at a raster index. -/
def dtDv (src : List Nat) (w h i : Nat) : ℚ := (distanceTransform src w h).getD i 0

theorem dtFv_eq_step (src : List Nat) (w h i : Nat) (hi : i < w * h) :
    dtFv src w h i = fwdStep w (fwdScan w i (dtInit src w h)) i := by
  unfold dtFv dtF
  exact fwdScan_getD_final w (w * h) _ i 0 hi (by rw [dtInit_length]; exact hi)

theorem dtFv_state_earlier (src : List Nat) (w h i j : Nat) (v : ℚ)
    (hji : j < i) (hjn : j < w * h) (hin : i ≤ w * h) :
    (fwdScan w i (dtInit src w h)).getD j v = dtFv src w h j := by
  rw [fwdScan_getD_earlier w (w * h) _ i j v hji hin]
  unfold dtFv dtF
  exact getD_default_eq _ j (by rw [fwdScan_length, dtInit_length]; exact hjn) v 0

theorem dtFv_le_left (src : List Nat) (w h x y : Nat)
    (hx1 : x + 1 < w) (hy : y < h) :
    dtFv src w h (idx w (x + 1) y) ≤ dtFv src w h (idx w x y) + 1 := by
  have hi : idx w (x + 1) y < w * h := idx_lt w h (x + 1) y hx1 hy
  have hj : idx w x y < w * h := idx_lt w h x y (by omega) hy
  rw [dtFv_eq_step src w h _ hi]
  refine le_trans (fwdStep_le_left _ _ _ ?_) ?_
  · rw [idx_mod w (x + 1) y hx1]; omega
  · rw [show idx w (x + 1) y - 1 = idx w x y by rw [idx_succ_x]; omega]
    rw [dtFv_state_earlier src w h _ _ _ (by rw [idx_succ_x]; omega) hj (le_of_lt hi)]

theorem dtFv_le_up (src : List Nat) (w h x y : Nat)
    (hx : x < w) (hy1 : y + 1 < h) :
    dtFv src w h (idx w x (y + 1)) ≤ dtFv src w h (idx w x y) + 1 := by
  have hi : idx w x (y + 1) < w * h := idx_lt w h x (y + 1) hx hy1
  have hj : idx w x y < w * h := idx_lt w h x y hx (by omega)
  rw [dtFv_eq_step src w h _ hi]
  refine le_trans (fwdStep_le_up _ _ _ ?_) ?_
  · rw [idx_div w x (y + 1) hx]; omega
  · rw [show idx w x (y + 1) - w = idx w x y by rw [idx_succ_y]; omega]
    rw [dtFv_state_earlier src w h _ _ _ ?_ hj (le_of_lt hi)]
    rw [idx_succ_y]
    have hw : 0 < w := by omega
    omega

theorem dtFv_le_ul (src : List Nat) (w h x y : Nat)
    (hx1 : x + 1 < w) (hy1 : y + 1 < h) :
    dtFv src w h (idx w (x + 1) (y + 1)) ≤ dtFv src w h (idx w x y) + 7/5 := by
  have hi : idx w (x + 1) (y + 1) < w * h := idx_lt w h (x + 1) (y + 1) hx1 hy1
  have hj : idx w x y < w * h := idx_lt w h x y (by omega) (by omega)
  rw [dtFv_eq_step src w h _ hi]
  refine le_trans (fwdStep_le_ul _ _ _ ⟨?_, ?_⟩) ?_
  · rw [idx_mod w (x + 1) (y + 1) hx1]; omega
  · rw [idx_div w (x + 1) (y + 1) hx1]; omega
  · rw [show idx w (x + 1) (y + 1) - w - 1 = idx w x y by rw [idx_succ_xy]; omega]
    rw [dtFv_state_earlier src w h _ _ _ ?_ hj (le_of_lt hi)]
    rw [idx_succ_xy]
    omega

theorem dtFv_le_ur (src : List Nat) (w h x y : Nat)
    (hx1 : x + 1 < w) (hy1 : y + 1 < h) :
    dtFv src w h (idx w x (y + 1)) ≤ dtFv src w h (idx w (x + 1) y) + 7/5 := by
  have hi : idx w x (y + 1) < w * h := idx_lt w h x (y + 1) (by omega) hy1
  have hj : idx w (x + 1) y < w * h := idx_lt w h (x + 1) y hx1 (by omega)
  rw [dtFv_eq_step src w h _ hi]
  refine le_trans (fwdStep_le_ur _ _ _ ⟨?_, ?_⟩) ?_
  · rw [idx_mod w x (y + 1) (by omega)]; exact hx1
  · rw [idx_div w x (y + 1) (by omega)]; omega
  · rw [show idx w x (y + 1) - w + 1 = idx w (x + 1) y by
      rw [idx_succ_y, idx_succ_x]; omega]
    rw [dtFv_state_earlier src w h _ _ _ ?_ hj (le_of_lt hi)]
    rw [idx_succ_y, idx_succ_x]
    have hw : 1 < w := by omega
    omega

theorem dtDv_eq_step (src : List Nat) (w h i : Nat) (hi : i < w * h) :
    dtDv src w h i
      = bwdStep w h (bwdScan w h (w * h - i - 1) (dtF src w h)) i := by
  unfold dtDv distanceTransform
  exact bwdScan_getD_final w h _ i 0 hi
    (by rw [dtF, fwdScan_length, dtInit_length]; exact hi)

theorem dtDv_state_later (src : List Nat) (w h i j : Nat) (v : ℚ)
    (hij : i < j) (hjn : j < w * h) :
    (bwdScan w h (w * h - i - 1) (dtF src w h)).getD j v = dtDv src w h j := by
  rw [bwdScan_getD_later w h _ i j v hij hjn]
  unfold dtDv distanceTransform
  exact getD_default_eq _ j
    (by rw [bwdScan_length, dtF, fwdScan_length, dtInit_length]; exact hjn) v 0

theorem dtDv_state_at (src : List Nat) (w h i : Nat) (v : ℚ) (hi : i < w * h) :
    (bwdScan w h (w * h - i - 1) (dtF src w h)).getD i v = (dtF src w h).getD i v :=
  bwdScan_getD_at w h _ i v hi

theorem dtDv_le_dtFv (src : List Nat) (w h i : Nat) (hi : i < w * h) :
    dtDv src w h i ≤ dtFv src w h i := by
  rw [dtDv_eq_step src w h i hi]
  refine le_trans (bwdStep_le_cur _ _ _ _) ?_
  rw [dtDv_state_at src w h i 0 hi]
  exact le_refl _

theorem dtDv_le_right (src : List Nat) (w h x y : Nat)
    (hx1 : x + 1 < w) (hy : y < h) :
    dtDv src w h (idx w x y) ≤ dtDv src w h (idx w (x + 1) y) + 1 := by
  have hi : idx w x y < w * h := idx_lt w h x y (by omega) hy
  have hj : idx w (x + 1) y < w * h := idx_lt w h (x + 1) y hx1 hy
  rw [dtDv_eq_step src w h _ hi]
  refine le_trans (bwdStep_le_right _ _ _ _ ?_) ?_
  · rw [idx_mod w x y (by omega)]; exact hx1
  · rw [show idx w x y + 1 = idx w (x + 1) y from (idx_succ_x w x y).symm]
    rw [dtDv_state_later src w h _ _ _ (by rw [idx_succ_x]; omega) hj]

theorem dtDv_le_down (src : List Nat) (w h x y : Nat)
    (hx : x < w) (hy1 : y + 1 < h) :
    dtDv src w h (idx w x y) ≤ dtDv src w h (idx w x (y + 1)) + 1 := by
  have hi : idx w x y < w * h := idx_lt w h x y hx (by omega)
  have hj : idx w x (y + 1) < w * h := idx_lt w h x (y + 1) hx hy1
  rw [dtDv_eq_step src w h _ hi]
  refine le_trans (bwdStep_le_down _ _ _ _ ?_) ?_
  · rw [idx_div w x y hx]; exact hy1
  · rw [show idx w x y + w = idx w x (y + 1) from (idx_succ_y w x y).symm]
    rw [dtDv_state_later src w h _ _ _ ?_ hj]
    rw [idx_succ_y]
    have hw : 0 < w := by omega
    omega

theorem dtDv_le_dr (src : List Nat) (w h x y : Nat)
    (hx1 : x + 1 < w) (hy1 : y + 1 < h) :
    dtDv src w h (idx w x y) ≤ dtDv src w h (idx w (x + 1) (y + 1)) + 7/5 := by
  have hi : idx w x y < w * h := idx_lt w h x y (by omega) (by omega)
  have hj : idx w (x + 1) (y + 1) < w * h := idx_lt w h (x + 1) (y + 1) hx1 hy1
  rw [dtDv_eq_step src w h _ hi]
  refine le_trans (bwdStep_le_dr _ _ _ _ ⟨?_, ?_⟩) ?_
  · rw [idx_mod w x y (by omega)]; exact hx1
  · rw [idx_div w x y (by omega)]; exact hy1
  · rw [show idx w x y + w + 1 = idx w (x + 1) (y + 1) from (idx_succ_xy w x y).symm]
    rw [dtDv_state_later src w h _ _ _ ?_ hj]
    rw [idx_succ_xy]
    omega

theorem dtDv_le_dl (src : List Nat) (w h x y : Nat)
    (hx1 : x + 1 < w) (hy1 : y + 1 < h) :
    dtDv src w h (idx w (x + 1) y) ≤ dtDv src w h (idx w x (y + 1)) + 7/5 := by
  have hi : idx w (x + 1) y < w * h := idx_lt w h (x + 1) y hx1 (by omega)
  have hj : idx w x (y + 1) < w * h := idx_lt w h x (y + 1) (by omega) hy1
  rw [dtDv_eq_step src w h _ hi]
  refine le_trans (bwdStep_le_dl _ _ _ _ ⟨?_, ?_⟩) ?_
  · rw [idx_mod w (x + 1) y hx1]; omega
  · rw [idx_div w (x + 1) y hx1]; exact hy1
  · rw [show idx w (x + 1) y + w - 1 = idx w x (y + 1) by
      rw [idx_succ_x, idx_succ_y]; omega]
    rw [dtDv_state_later src w h _ _ _ ?_ hj]
    rw [idx_succ_x, idx_succ_y]
    have hw : 1 < w := by omega
    omega

/-- Case analysis for a four-fold guarded relaxation: its value is the
base or one of the guarded candidates. -/
theorem mcand4_cases (c v1 v2 v3 v4 : ℚ) (g1 g2 g3 g4 : Prop)
    [Decidable g1] [Decidable g2] [Decidable g3] [Decidable g4] :
    mcand (mcand (mcand (mcand c g1 v1) g2 v2) g3 v3) g4 v4 = c
    ∨ (g1 ∧ mcand (mcand (mcand (mcand c g1 v1) g2 v2) g3 v3) g4 v4 = v1)
    ∨ (g2 ∧ mcand (mcand (mcand (mcand c g1 v1) g2 v2) g3 v3) g4 v4 = v2)
    ∨ (g3 ∧ mcand (mcand (mcand (mcand c g1 v1) g2 v2) g3 v3) g4 v4 = v3)
    ∨ (g4 ∧ mcand (mcand (mcand (mcand c g1 v1) g2 v2) g3 v3) g4 v4 = v4) := by
  rcases mcand_cases (mcand (mcand (mcand c g1 v1) g2 v2) g3 v3) g4 v4 with e4 | ⟨hg4, e4⟩
  · rw [e4]
    rcases mcand_cases (mcand (mcand c g1 v1) g2 v2) g3 v3 with e3 | ⟨hg3, e3⟩
    · rw [e3]
      rcases mcand_cases (mcand c g1 v1) g2 v2 with e2 | ⟨hg2, e2⟩
      · rw [e2]
        rcases mcand_cases c g1 v1 with e1 | ⟨hg1, e1⟩
        · rw [e1]; exact Or.inl rfl
        · exact Or.inr (Or.inl ⟨hg1, e1⟩)
      · exact Or.inr (Or.inr (Or.inl ⟨hg2, e2⟩))
    · exact Or.inr (Or.inr (Or.inr (Or.inl ⟨hg3, e3⟩)))
  · exact Or.inr (Or.inr (Or.inr (Or.inr ⟨hg4, e4⟩)))

theorem bwdStep_cases (w h : Nat) (d : List ℚ) (i : Nat) :
    bwdStep w h d i = d.getD i 0
    ∨ (i % w + 1 < w ∧ bwdStep w h d i = d.getD (i + 1) dtInf + 1)
    ∨ (i / w + 1 < h ∧ bwdStep w h d i = d.getD (i + w) dtInf + 1)
    ∨ ((i % w + 1 < w ∧ i / w + 1 < h)
        ∧ bwdStep w h d i = d.getD (i + w + 1) dtInf + 7/5)
    ∨ ((0 < i % w ∧ i / w + 1 < h)
        ∧ bwdStep w h d i = d.getD (i + w - 1) dtInf + 7/5) := by
  unfold bwdStep
  exact mcand4_cases _ _ _ _ _ _ _ _ _

/-- The final value at a pixel is its forward value or one of its four
backward-neighbour values plus the step cost. -/
theorem dtDv_cases (src : List Nat) (w h x y : Nat) (hx : x < w) (hy : y < h) :
    dtDv src w h (idx w x y) = dtFv src w h (idx w x y)
    ∨ (x + 1 < w ∧ dtDv src w h (idx w x y) = dtDv src w h (idx w (x + 1) y) + 1)
    ∨ (y + 1 < h ∧ dtDv src w h (idx w x y) = dtDv src w h (idx w x (y + 1)) + 1)
    ∨ (x + 1 < w ∧ y + 1 < h
        ∧ dtDv src w h (idx w x y) = dtDv src w h (idx w (x + 1) (y + 1)) + 7/5)
    ∨ (y + 1 < h ∧ ∃ x2, x = x2 + 1
        ∧ dtDv src w h (idx w x y) = dtDv src w h (idx w x2 (y + 1)) + 7/5) := by
  have hi : idx w x y < w * h := idx_lt w h x y hx hy
  have hmod : idx w x y % w = x := idx_mod w x y hx
  have hdiv : idx w x y / w = y := idx_div w x y hx
  rw [dtDv_eq_step src w h _ hi]
  rcases bwdStep_cases w h (bwdScan w h (w * h - idx w x y - 1) (dtF src w h))
      (idx w x y) with e | ⟨hg, e⟩ | ⟨hg, e⟩ | ⟨⟨hgx, hgy⟩, e⟩ | ⟨⟨hgx, hgy⟩, e⟩
  · rw [e, dtDv_state_at src w h _ 0 hi]
    exact Or.inl rfl
  · rw [hmod] at hg
    refine Or.inr (Or.inl ⟨hg, ?_⟩)
    rw [e, show idx w x y + 1 = idx w (x + 1) y from (idx_succ_x w x y).symm,
      dtDv_state_later src w h _ _ _ (by rw [idx_succ_x]; omega)
        (idx_lt w h (x + 1) y hg hy)]
  · rw [hdiv] at hg
    refine Or.inr (Or.inr (Or.inl ⟨hg, ?_⟩))
    rw [e, show idx w x y + w = idx w x (y + 1) from (idx_succ_y w x y).symm,
      dtDv_state_later src w h _ _ _ ?_ (idx_lt w h x (y + 1) hx hg)]
    rw [idx_succ_y]
    have hw : 0 < w := by omega
    omega
  · rw [hmod] at hgx
    rw [hdiv] at hgy
    refine Or.inr (Or.inr (Or.inr (Or.inl ⟨hgx, hgy, ?_⟩)))
    rw [e, show idx w x y + w + 1 = idx w (x + 1) (y + 1) from
        (idx_succ_xy w x y).symm,
      dtDv_state_later src w h _ _ _ ?_ (idx_lt w h (x + 1) (y + 1) hgx hgy)]
    rw [idx_succ_xy]
    omega
  · rw [hmod] at hgx
    rw [hdiv] at hgy
    obtain ⟨x2, rfl⟩ : ∃ x2, x = x2 + 1 := ⟨x - 1, by omega⟩
    refine Or.inr (Or.inr (Or.inr (Or.inr ⟨hgy, x2, rfl, ?_⟩)))
    rw [e, show idx w (x2 + 1) y + w - 1 = idx w x2 (y + 1) by
        rw [idx_succ_x, idx_succ_y]; omega,
      dtDv_state_later src w h _ _ _ ?_ (idx_lt w h x2 (y + 1) (by omega) hgy)]
    rw [idx_succ_x, idx_succ_y]
    have hw : 1 < w := by omega
    omega

/-- Right-step mirror bound, by induction on the distance to the bottom
row: the final value one pixel to the right exceeds the value here by at
most the orthogonal cost. -/
theorem dtDv_right_mirror_aux (src : List Nat) (w h : Nat) :
    ∀ t x y, y < h → h - y ≤ t + 1 → x + 1 < w →
      dtDv src w h (idx w (x + 1) y) ≤ dtDv src w h (idx w x y) + 1 := by
  intro t
  induction t with
  | zero =>
    intro x y hy hb hx1
    rcases dtDv_cases src w h x y (by omega) hy with
      e | ⟨hg, e⟩ | ⟨hg, e⟩ | ⟨hg, hgy, e⟩ | ⟨hgy, x2, hxe, e⟩
    · calc dtDv src w h (idx w (x + 1) y)
          ≤ dtFv src w h (idx w (x + 1) y) :=
            dtDv_le_dtFv src w h _ (idx_lt w h (x + 1) y hx1 hy)
        _ ≤ dtFv src w h (idx w x y) + 1 := dtFv_le_left src w h x y hx1 hy
        _ = dtDv src w h (idx w x y) + 1 := by rw [e]
    · rw [e]; linarith
    · omega
    · omega
    · omega
  | succ t ih =>
    intro x y hy hb hx1
    rcases dtDv_cases src w h x y (by omega) hy with
      e | ⟨hg, e⟩ | ⟨hg, e⟩ | ⟨hg, hgy, e⟩ | ⟨hgy, x2, hxe, e⟩
    · calc dtDv src w h (idx w (x + 1) y)
          ≤ dtFv src w h (idx w (x + 1) y) :=
            dtDv_le_dtFv src w h _ (idx_lt w h (x + 1) y hx1 hy)
        _ ≤ dtFv src w h (idx w x y) + 1 := dtFv_le_left src w h x y hx1 hy
        _ = dtDv src w h (idx w x y) + 1 := by rw [e]
    · rw [e]; linarith
    · have hdl := dtDv_le_dl src w h x y hx1 hg
      rw [e]; linarith
    · have hdn := dtDv_le_down src w h (x + 1) y hx1 hgy
      rw [e]; linarith
    · subst hxe
      have hdl := dtDv_le_dl src w h (x2 + 1) y hx1 hgy
      have hih := ih x2 (y + 1) hgy (by omega) (by omega)
      rw [e]; linarith

theorem dtDv_right_mirror (src : List Nat) (w h x y : Nat)
    (hy : y < h) (hx1 : x + 1 < w) :
    dtDv src w h (idx w (x + 1) y) ≤ dtDv src w h (idx w x y) + 1 :=
  dtDv_right_mirror_aux src w h h x y hy (by omega) hx1

/-- Down-step mirror bound, by induction on the distance to the right
edge. -/
theorem dtDv_down_mirror_aux (src : List Nat) (w h : Nat) :
    ∀ s x y, x < w → w - x ≤ s + 1 → y + 1 < h →
      dtDv src w h (idx w x (y + 1)) ≤ dtDv src w h (idx w x y) + 1 := by
  intro s
  induction s with
  | zero =>
    intro x y hx hb hy1
    rcases dtDv_cases src w h x y hx (by omega) with
      e | ⟨hg, e⟩ | ⟨hg, e⟩ | ⟨hg, hgy, e⟩ | ⟨hgy, x2, hxe, e⟩
    · calc dtDv src w h (idx w x (y + 1))
          ≤ dtFv src w h (idx w x (y + 1)) :=
            dtDv_le_dtFv src w h _ (idx_lt w h x (y + 1) hx hy1)
        _ ≤ dtFv src w h (idx w x y) + 1 := dtFv_le_up src w h x y hx hy1
        _ = dtDv src w h (idx w x y) + 1 := by rw [e]
    · omega
    · rw [e]; linarith
    · omega
    · subst hxe
      have hrm := dtDv_right_mirror src w h x2 (y + 1) hgy (by omega)
      rw [e]; linarith
  | succ s ih =>
    intro x y hx hb hy1
    rcases dtDv_cases src w h x y hx (by omega) with
      e | ⟨hg, e⟩ | ⟨hg, e⟩ | ⟨hg, hgy, e⟩ | ⟨hgy, x2, hxe, e⟩
    · calc dtDv src w h (idx w x (y + 1))
          ≤ dtFv src w h (idx w x (y + 1)) :=
            dtDv_le_dtFv src w h _ (idx_lt w h x (y + 1) hx hy1)
        _ ≤ dtFv src w h (idx w x y) + 1 := dtFv_le_up src w h x y hx hy1
        _ = dtDv src w h (idx w x y) + 1 := by rw [e]
    · have hrt := dtDv_le_right src w h x (y + 1) hg hy1
      have hih := ih (x + 1) y hg (by omega) hy1
      rw [e]; linarith
    · rw [e]; linarith
    · have hrt := dtDv_le_right src w h x (y + 1) hg hy1
      rw [e]; linarith
    · subst hxe
      have hrm := dtDv_right_mirror src w h x2 (y + 1) hgy (by omega)
      rw [e]; linarith

theorem dtDv_down_mirror (src : List Nat) (w h x y : Nat)
    (hx : x < w) (hy1 : y + 1 < h) :
    dtDv src w h (idx w x (y + 1)) ≤ dtDv src w h (idx w x y) + 1 :=
  dtDv_down_mirror_aux src w h w x y hx (by omega) hy1

/-- Down-right diagonal mirror bound. -/
theorem dtDv_dr_mirror (src : List Nat) (w h x y : Nat)
    (hx1 : x + 1 < w) (hy1 : y + 1 < h) :
    dtDv src w h (idx w (x + 1) (y + 1)) ≤ dtDv src w h (idx w x y) + 7/5 := by
  rcases dtDv_cases src w h x y (by omega) (by omega) with
    e | ⟨hg, e⟩ | ⟨hg, e⟩ | ⟨hg, hgy, e⟩ | ⟨hgy, x2, hxe, e⟩
  · calc dtDv src w h (idx w (x + 1) (y + 1))
        ≤ dtFv src w h (idx w (x + 1) (y + 1)) :=
          dtDv_le_dtFv src w h _ (idx_lt w h (x + 1) (y + 1) hx1 hy1)
      _ ≤ dtFv src w h (idx w x y) + 7/5 := dtFv_le_ul src w h x y hx1 hy1
      _ = dtDv src w h (idx w x y) + 7/5 := by rw [e]
  · have hdm := dtDv_down_mirror src w h (x + 1) y hx1 hy1
    rw [e]; linarith
  · have hrm := dtDv_right_mirror src w h x (y + 1) hy1 hx1
    rw [e]; linarith
  · rw [e]; linarith
  · subst hxe
    have hrm1 := dtDv_right_mirror src w h (x2 + 1) (y + 1) hy1 hx1
    have hrm2 := dtDv_right_mirror src w h x2 (y + 1) hy1 (by omega)
    rw [e]; linarith

/-- Down-left diagonal mirror bound, by induction on the distance to the
right edge. -/
theorem dtDv_dl_mirror_aux (src : List Nat) (w h : Nat) :
    ∀ s x y, x + 1 < w → w - x ≤ s + 2 → y + 1 < h →
      dtDv src w h (idx w x (y + 1)) ≤ dtDv src w h (idx w (x + 1) y) + 7/5 := by
  intro s
  induction s with
  | zero =>
    intro x y hx1 hb hy1
    rcases dtDv_cases src w h (x + 1) y hx1 (by omega) with
      e | ⟨hg, e⟩ | ⟨hg, e⟩ | ⟨hg, hgy, e⟩ | ⟨hgy, x2, hxe, e⟩
    · calc dtDv src w h (idx w x (y + 1))
          ≤ dtFv src w h (idx w x (y + 1)) :=
            dtDv_le_dtFv src w h _ (idx_lt w h x (y + 1) (by omega) hy1)
        _ ≤ dtFv src w h (idx w (x + 1) y) + 7/5 := dtFv_le_ur src w h x y hx1 hy1
        _ = dtDv src w h (idx w (x + 1) y) + 7/5 := by rw [e]
    · omega
    · have hrt := dtDv_le_right src w h x (y + 1) hx1 hy1
      rw [e]; linarith
    · omega
    · have hx2 : x2 = x := by omega
      subst hx2
      rw [e]; linarith
  | succ s ih =>
    intro x y hx1 hb hy1
    rcases dtDv_cases src w h (x + 1) y hx1 (by omega) with
      e | ⟨hg, e⟩ | ⟨hg, e⟩ | ⟨hg, hgy, e⟩ | ⟨hgy, x2, hxe, e⟩
    · calc dtDv src w h (idx w x (y + 1))
          ≤ dtFv src w h (idx w x (y + 1)) :=
            dtDv_le_dtFv src w h _ (idx_lt w h x (y + 1) (by omega) hy1)
        _ ≤ dtFv src w h (idx w (x + 1) y) + 7/5 := dtFv_le_ur src w h x y hx1 hy1
        _ = dtDv src w h (idx w (x + 1) y) + 7/5 := by rw [e]
    · have hrt := dtDv_le_right src w h x (y + 1) hx1 hy1
      have hih := ih (x + 1) y hg (by omega) hy1
      rw [e]; linarith
    · have hrt := dtDv_le_right src w h x (y + 1) hx1 hy1
      rw [e]; linarith
    · have hrt1 := dtDv_le_right src w h x (y + 1) hx1 hy1
      have hrt2 := dtDv_le_right src w h (x + 1) (y + 1) hg hy1
      rw [e]; linarith
    · have hx2 : x2 = x := by omega
      subst hx2
      rw [e]; linarith

theorem dtDv_dl_mirror (src : List Nat) (w h x y : Nat)
    (hx1 : x + 1 < w) (hy1 : y + 1 < h) :
    dtDv src w h (idx w x (y + 1)) ≤ dtDv src w h (idx w (x + 1) y) + 7/5 :=
  dtDv_dl_mirror_aux src w h w x y hx1 (by omega) hy1

theorem dtInit_getD (src : List Nat) (w h i : Nat) (hi : i < w * h) (v : ℚ) :
    (dtInit src w h).getD i v = if 0 < src.getD i 0 then 0 else dtInf := by
  unfold dtInit
  rw [List.getD_eq_getElem _ v (by simpa using hi)]
  simp

theorem one_le_getD_add (d : List ℚ) (j : Nat) (c : ℚ)
    (hd : nonnegL d) (hc : 1 ≤ c) : 1 ≤ d.getD j dtInf + c := by
  have := getD_nonneg d j dtInf hd dtInf_nonneg
  linarith

theorem le_one_fwdStep (w : Nat) (d : List ℚ) (i : Nat)
    (hd : nonnegL d) (hc : 1 ≤ d.getD i dtInf) : 1 ≤ fwdStep w d i := by
  unfold fwdStep
  refine le_mcand _ _ _ _ (le_mcand _ _ _ _ (le_mcand _ _ _ _ (le_mcand _ _ _ _
    hc ?_) ?_) ?_) ?_ <;> intro _ <;>
    exact one_le_getD_add d _ _ hd (by norm_num)

theorem le_one_bwdStep (w h : Nat) (d : List ℚ) (i : Nat)
    (hd : nonnegL d) (hc : 1 ≤ d.getD i 0) : 1 ≤ bwdStep w h d i := by
  unfold bwdStep
  refine le_mcand _ _ _ _ (le_mcand _ _ _ _ (le_mcand _ _ _ _ (le_mcand _ _ _ _
    hc ?_) ?_) ?_) ?_ <;> intro _ <;>
    exact one_le_getD_add d _ _ hd (by norm_num)

theorem dtFv_zero_of_set (src : List Nat) (w h i : Nat)
    (hi : i < w * h) (hs : 0 < src.getD i 0) : dtFv src w h i = 0 := by
  have hnn : 0 ≤ dtFv src w h i :=
    getD_nonneg _ _ _ (dtF_nonneg src w h) (le_refl 0)
  have hub : dtFv src w h i ≤ 0 := by
    rw [dtFv_eq_step src w h i hi]
    refine le_trans (fwdStep_le_cur _ _ _) ?_
    rw [fwdScan_getD_of_le w _ i i dtInf (le_refl i),
      dtInit_getD src w h i hi dtInf, if_pos hs]
  linarith

theorem dtDv_zero_of_set (src : List Nat) (w h i : Nat)
    (hi : i < w * h) (hs : 0 < src.getD i 0) : dtDv src w h i = 0 := by
  have hnn : 0 ≤ dtDv src w h i :=
    getD_nonneg _ _ _ (distanceTransform_nonneg src w h) (le_refl 0)
  have hub : dtDv src w h i ≤ 0 := by
    rw [dtDv_eq_step src w h i hi]
    refine le_trans (bwdStep_le_cur _ _ _ _) ?_
    rw [dtDv_state_at src w h i 0 hi]
    have := dtFv_zero_of_set src w h i hi hs
    unfold dtFv at this
    rw [this]
  linarith

theorem one_le_dtFv_of_unset (src : List Nat) (w h i : Nat)
    (hi : i < w * h) (hs : src.getD i 0 = 0) : 1 ≤ dtFv src w h i := by
  rw [dtFv_eq_step src w h i hi]
  refine le_one_fwdStep w _ i (fwdScan_nonneg _ _ _ (dtInit_nonneg src w h)) ?_
  rw [fwdScan_getD_of_le w _ i i dtInf (le_refl i),
    dtInit_getD src w h i hi dtInf, if_neg (by omega)]
  exact one_le_dtInf

theorem one_le_dtDv_of_unset (src : List Nat) (w h i : Nat)
    (hi : i < w * h) (hs : src.getD i 0 = 0) : 1 ≤ dtDv src w h i := by
  rw [dtDv_eq_step src w h i hi]
  refine le_one_bwdStep w h _ i (bwdScan_nonneg _ _ _ _ (dtF_nonneg src w h)) ?_
  rw [dtDv_state_at src w h i 0 hi]
  exact one_le_dtFv_of_unset src w h i hi hs

/-- C9: the two-pass Chamfer `distanceTransform` is 0 exactly on set
pixels; the final values of two 4-adjacent pixels differ by at most 1 and
those of two diagonally adjacent pixels by at most 1.4 (= 7/5). -/
theorem c9_distanceTransform_zero_set_and_adjacent_bounds
    (src : List Nat) (w h x y : Nat) (hx : x < w) (hy : y < h) :
    (dtDv src w h (idx w x y) = 0 ↔ 0 < src.getD (idx w x y) 0)
    ∧ (x + 1 < w →
        |dtDv src w h (idx w (x + 1) y) - dtDv src w h (idx w x y)| ≤ 1)
    ∧ (y + 1 < h →
        |dtDv src w h (idx w x (y + 1)) - dtDv src w h (idx w x y)| ≤ 1)
    ∧ (x + 1 < w → y + 1 < h →
        |dtDv src w h (idx w (x + 1) (y + 1)) - dtDv src w h (idx w x y)| ≤ 7/5)
    ∧ (x + 1 < w → y + 1 < h →
        |dtDv src w h (idx w x (y + 1)) - dtDv src w h (idx w (x + 1) y)| ≤ 7/5) := by
  have hin : idx w x y < w * h := idx_lt w h x y hx hy
  refine ⟨⟨?_, ?_⟩, ?_, ?_, ?_, ?_⟩
  · intro hz
    by_contra hpos
    have hzero : src.getD (idx w x y) 0 = 0 := by omega
    have := one_le_dtDv_of_unset src w h _ hin hzero
    rw [hz] at this
    linarith
  · exact dtDv_zero_of_set src w h _ hin
  · intro hx1
    rw [abs_sub_le_iff]
    constructor
    · linarith [dtDv_right_mirror src w h x y hy hx1]
    · linarith [dtDv_le_right src w h x y hx1 hy]
  · intro hy1
    rw [abs_sub_le_iff]
    constructor
    · linarith [dtDv_down_mirror src w h x y hx hy1]
    · linarith [dtDv_le_down src w h x y hx hy1]
  · intro hx1 hy1
    rw [abs_sub_le_iff]
    constructor
    · linarith [dtDv_dr_mirror src w h x y hx1 hy1]
    · linarith [dtDv_le_dr src w h x y hx1 hy1]
  · intro hx1 hy1
    rw [abs_sub_le_iff]
    constructor
    · linarith [dtDv_dl_mirror src w h x y hx1 hy1]
    · linarith [dtDv_le_dl src w h x y hx1 hy1]

/-- Model of the IEEE `Infinity` initial value of `minStroke` in
computeWarnings: any rational strictly larger than every value the code
can produce (distances are at most `1e9 + 1.4·(W·H)` and `W, H ≤ 2000`). -/
def jsInfinity : ℚ := 10 ^ 15

/-- Indices of opaque samples: the loop `if (alphaMask[i]) …` over
`i < width·height`. -/
def opaqueIdx (am : List Nat) (w h : Nat) : List Nat :=
  (List.range (w * h)).filter (fun i => am.getD i 0 ≠ 0)

/-- The `minStroke` accumulator of computeWarnings:
`min over opaque i of distIn[i] * 2`, starting from `Infinity`. -/
def minStroke (am : List Nat) (w h : Nat) : ℚ :=
  (opaqueIdx am w h).foldl
    (fun m i => min m ((distanceTransform am w h).getD i 0 * 2)) jsInfinity

/-- Thin-stroke warning of computeWarnings:
emitted iff `samples > 0 && minStroke < threadThickness`. -/
def thinStrokeWarning (am : List Nat) (w h tT : Nat) : List String :=
  if 0 < (opaqueIdx am w h).length ∧ minStroke am w h < (tT : ℚ) then
    ["Thin strokes may not embroider cleanly"]
  else []

/-- Edge-density warning of computeWarnings: emitted iff an edge mask was
given and `(# set pixels) / length > 0.12`. -/
def denseWarning (edgeMask : Option (List Nat)) : List String :=
  match edgeMask with
  | none => []
  | some em =>
    if (12 : ℚ) / 100 < ((em.filter (fun v => v ≠ 0)).length : ℚ) / (em.length : ℚ)
    then ["Dense detail may fill in on fabric"]
    else []

/-- Palette-reduction warning of computeWarnings: emitted iff both counts
were given and `paletteSize > maxColors`. -/
def reducedWarning (maxColors paletteSize : Option Nat) : List String :=
  match maxColors, paletteSize with
  | some mc, some ps =>
    if mc < ps then ["Reduced colors to " ++ toString mc] else []
  | _, _ => []

/-- computeWarnings of warnings.ts: the three warnings, in push order. -/
def computeWarnings (am : List Nat) (w h tT : Nat)
    (edgeMask : Option (List Nat)) (maxColors paletteSize : Option Nat) :
    List String :=
  thinStrokeWarning am w h tT ++ denseWarning edgeMask
    ++ reducedWarning maxColors paletteSize

theorem foldl_min_le_acc (f : Nat → ℚ) :
    ∀ (l : List Nat) (a : ℚ), l.foldl (fun m i => min m (f i)) a ≤ a := by
  intro l
  induction l with
  | nil => intro a; exact le_refl a
  | cons y l ih =>
    intro a
    exact le_trans (ih (min a (f y))) (min_le_left _ _)

theorem foldl_min_le_of_mem (f : Nat → ℚ) :
    ∀ (l : List Nat) (a : ℚ) (x : Nat), x ∈ l →
      l.foldl (fun m i => min m (f i)) a ≤ f x := by
  intro l
  induction l with
  | nil => intro a x hx; exact absurd hx (List.not_mem_nil x)
  | cons y l ih =>
    intro a x hx
    rcases List.mem_cons.mp hx with rfl | hx
    · exact le_trans (foldl_min_le_acc f l (min a (f x))) (min_le_right _ _)
    · exact ih (min a (f y)) x hx

theorem mem_opaqueIdx (am : List Nat) (w h i : Nat) :
    i ∈ opaqueIdx am w h ↔ i < w * h ∧ am.getD i 0 ≠ 0 := by
  simp [opaqueIdx, List.mem_filter]

/-- C1 (code bug): computeWarnings runs the distance transform on the
alpha mask itself, so every opaque pixel has distance 0 and
`minStroke = 0 < threadThickness`; the thin-stroke warning is therefore
emitted for every image containing at least one opaque pixel — including
a fully uniform opaque image, which the specification says must not warn. -/
theorem c1_thinStroke_warning_fires_for_any_opaque_image
    (am : List Nat) (w h tT : Nat) (em : Option (List Nat))
    (mc ps : Option Nat) (hT : 0 < tT)
    (hop : ∃ i, i < w * h ∧ am.getD i 0 ≠ 0) :
    "Thin strokes may not embroider cleanly"
      ∈ computeWarnings am w h tT em mc ps := by
  obtain ⟨i, hi, hai⟩ := hop
  have him : i ∈ opaqueIdx am w h := (mem_opaqueIdx am w h i).mpr ⟨hi, hai⟩
  have hlen : 0 < (opaqueIdx am w h).length :=
    List.length_pos.mpr (List.ne_nil_of_mem him)
  have hdz : dtDv am w h i = 0 :=
    dtDv_zero_of_set am w h i hi (by omega)
  have hms : minStroke am w h ≤ 0 := by
    unfold minStroke
    refine le_trans (foldl_min_le_of_mem
      (fun j => (distanceTransform am w h).getD j 0 * 2)
      (opaqueIdx am w h) jsInfinity i him) ?_
    show (distanceTransform am w h).getD i 0 * 2 ≤ 0
    unfold dtDv at hdz
    rw [hdz]
    norm_num
  have hcond : 0 < (opaqueIdx am w h).length
      ∧ minStroke am w h < (tT : ℚ) := by
    refine ⟨hlen, lt_of_le_of_lt hms ?_⟩
    exact_mod_cast hT
  unfold computeWarnings thinStrokeWarning
  rw [if_pos hcond]
  exact List.mem_append_left _ (List.mem_append_left _ (List.mem_cons_self _ _))

/-- Witness for C1: a fully opaque uniform 3×3 image with T = 3 — the
code emits the thin-stroke warning there. -/
theorem c1_thinStroke_warning_fires_for_any_opaque_image_witness :
    0 < 3 ∧ "Thin strokes may not embroider cleanly"
      ∈ computeWarnings (List.replicate 9 255) 3 3 3 none none none :=
  ⟨by norm_num,
   c1_thinStroke_warning_fires_for_any_opaque_image
     (List.replicate 9 255) 3 3 3 none none none (by norm_num)
     ⟨0, by norm_num, by decide⟩⟩

/-- An RGBA pixel (one 4-byte group of a raw buffer). -/
structure RGBA where
  r : Nat
  g : Nat
  b : Nat
  a : Nat
deriving DecidableEq, Inhabited

/-- `Math.round(v / 16) * 16` for a byte `v` (half rounds up). -/
def jsRound16 (v : Nat) : Nat := (v + 8) / 16 * 16

/-- Rounding used by extractPaletteFast: each of r, g, b to a multiple of
16, alpha kept. -/
def roundColor (p : RGBA) : RGBA :=
  ⟨jsRound16 p.r, jsRound16 p.g, jsRound16 p.b, p.a⟩

/-- The sampling loop `for (i = 0; i < rgba.length; i += 4 * step)` with
`step = 4`: every 4th pixel. -/
def sampleStep4 : List RGBA → List RGBA
  | [] => []
  | [p] => [p]
  | [p, _] => [p]
  | [p, _, _] => [p]
  | p :: _ :: _ :: _ :: rest => p :: sampleStep4 rest

/-- One entry of the `colorFreq` map: the stored (rounded) color and its
count.  The map key `r,g,b,a` is exactly the stored color. -/
structure FreqEntry where
  color : RGBA
  count : Nat
deriving DecidableEq, Inhabited

/-- `colorFreq.set / count++`: bump the count of a key, or append a new
entry (JS `Map` preserves insertion order and keeps the position of an
existing key). -/
def bumpFreq : List FreqEntry → RGBA → List FreqEntry
  | [], c => [⟨c, 1⟩]
  | e :: rest, c =>
    if e.color = c then ⟨e.color, e.count + 1⟩ :: rest else e :: bumpFreq rest c

/-- The frequency map of extractPaletteFast, as an insertion-ordered
association list. -/
def colorFreq (pixels : List RGBA) : List FreqEntry :=
  pixels.foldl (fun acc p => bumpFreq acc (roundColor p)) []

/-- Stable descending insertion: the new (earlier-in-input) entry goes
before the first entry whose count is not larger, matching the stable JS
`sort((a, b) => b.count - a.count)`. -/
def insertDesc (e : FreqEntry) : List FreqEntry → List FreqEntry
  | [] => [e]
  | f :: rest =>
    if e.count < f.count then f :: insertDesc e rest else e :: f :: rest

/-- Stable sort descending by count. -/
def sortDesc : List FreqEntry → List FreqEntry
  | [] => []
  | e :: rest => insertDesc e (sortDesc rest)

/-- extractPaletteFast of the fast quantizer: sample every 4th pixel,
count rounded colors, sort descending by count, take the top
`maxColors`, return the colors. -/
def extractPaletteFast (rgba : List RGBA) (maxColors : Nat) : List RGBA :=
  ((sortDesc (colorFreq (sampleStep4 rgba))).take maxColors).map
    (fun e => e.color)

/-- Squared RGB distance `dr*dr + dg*dg + db*db` of applyPaletteToImage. -/
def distSq (p c : RGBA) : Int :=
  ((p.r : Int) - c.r) * ((p.r : Int) - c.r)
    + ((p.g : Int) - c.g) * ((p.g : Int) - c.g)
    + ((p.b : Int) - c.b) * ((p.b : Int) - c.b)

/-- Nearest palette color by strict improvement over a running minimum
that starts at `Infinity` (modelled as `none`, which every distance
beats); `none` is returned only for an empty palette, where the JS code
would read a property of `undefined`. -/
def nearestColor (palette : List RGBA) (p : RGBA) : Option RGBA :=
  (palette.foldl
    (fun acc c =>
      match acc with
      | (_, none) => (some c, some (distSq p c))
      | (cl, some m) =>
        if distSq p c < m then (some c, some (distSq p c)) else (cl, some m))
    ((none : Option RGBA), (none : Option Int))).1

/-- applyPaletteToImage of the fast quantizer: per pixel the nearest
palette color in RGB, alpha preserved from the input. -/
def applyPaletteToImage : List RGBA → List RGBA → Option (List RGBA)
  | [], _ => some []
  | p :: rest, palette =>
    match nearestColor palette p, applyPaletteToImage rest palette with
    | some c, some q => some (⟨c.r, c.g, c.b, p.a⟩ :: q)
    | _, _ => none

/-- quantizeColors of the fast quantizer.  The sharp nearest-neighbour
downscale is an external library call; the downscaled pixel list is
passed in as `downscaled` (nearest-neighbour resampling only selects
existing pixels). -/
def quantizeColors (img downscaled : List RGBA) (maxColors : Nat) :
    Option (List RGBA × List RGBA) :=
  (applyPaletteToImage img (extractPaletteFast downscaled maxColors)).map
    (fun q => (q, extractPaletteFast downscaled maxColors))

theorem nearestColor_fold_cases (p : RGBA) :
    ∀ (l : List RGBA) (acc : Option RGBA × Option Int),
      (l.foldl
        (fun acc c =>
          match acc with
          | (_, none) => (some c, some (distSq p c))
          | (cl, some m) =>
            if distSq p c < m then (some c, some (distSq p c)) else (cl, some m))
        acc).1 = acc.1
      ∨ ∃ c ∈ l, (l.foldl
        (fun acc c =>
          match acc with
          | (_, none) => (some c, some (distSq p c))
          | (cl, some m) =>
            if distSq p c < m then (some c, some (distSq p c)) else (cl, some m))
        acc).1 = some c := by
  intro l
  induction l with
  | nil => intro acc; exact Or.inl rfl
  | cons c l ih =>
    intro acc
    rcases ih (match acc with
      | (_, none) => (some c, some (distSq p c))
      | (cl, some m) =>
        if distSq p c < m then (some c, some (distSq p c)) else (cl, some m)) with
      hfix | ⟨c2, hc2, he⟩
    · rcases acc with ⟨cl, m⟩
      rcases m with _ | m
      · exact Or.inr ⟨c, List.mem_cons_self c l, hfix⟩
      · by_cases hlt : distSq p c < m
        · refine Or.inr ⟨c, List.mem_cons_self c l, ?_⟩
          rw [List.foldl_cons] at *
          simpa [hlt] using hfix
        · refine Or.inl ?_
          rw [List.foldl_cons] at *
          simpa [hlt] using hfix
    · exact Or.inr ⟨c2, List.mem_cons_of_mem c hc2, he⟩

theorem nearestColor_mem (palette : List RGBA) (p : RGBA)
    (hp : palette ≠ []) : ∃ c ∈ palette, nearestColor palette p = some c := by
  rcases palette with _ | ⟨q, rest⟩
  · exact absurd rfl hp
  · unfold nearestColor
    rcases nearestColor_fold_cases p (q :: rest) ((none : Option RGBA), (none : Option Int)) with
      hfix | ⟨c, hc, he⟩
    · rw [List.foldl_cons] at hfix
      rcases nearestColor_fold_cases p rest ((some q, some (distSq p q)) :
          Option RGBA × Option Int) with h2 | ⟨c2, hc2, he2⟩
      · refine ⟨q, List.mem_cons_self q rest, ?_⟩
        rw [List.foldl_cons]
        exact h2
      · refine ⟨c2, List.mem_cons_of_mem q hc2, ?_⟩
        rw [List.foldl_cons]
        exact he2
    · exact ⟨c, hc, he⟩

theorem applyPaletteToImage_spec (palette : List RGBA) (hp : palette ≠ []) :
    ∀ img : List RGBA, ∃ q, applyPaletteToImage img palette = some q
      ∧ q.length = img.length
      ∧ ∀ i, i < img.length → ∃ c ∈ palette,
          (q.getD i default).r = c.r ∧ (q.getD i default).g = c.g
          ∧ (q.getD i default).b = c.b
          ∧ (q.getD i default).a = (img.getD i default).a := by
  intro img
  induction img with
  | nil =>
    refine ⟨[], rfl, rfl, ?_⟩
    intro i hi
    exact absurd hi (Nat.not_lt_zero i)
  | cons p rest ih =>
    obtain ⟨q, hq, hlen, hspec⟩ := ih
    obtain ⟨c, hc, hnc⟩ := nearestColor_mem palette p hp
    refine ⟨⟨c.r, c.g, c.b, p.a⟩ :: q, ?_, by simp [hlen], ?_⟩
    · unfold applyPaletteToImage
      rw [hnc, hq]
    · intro i hi
      match i with
      | 0 => exact ⟨c, hc, rfl, rfl, rfl, rfl⟩
      | Nat.succ j =>
        have hj : j < rest.length := by simpa using hi
        obtain ⟨c2, hc2, hs⟩ := hspec j hj
        exact ⟨c2, hc2, by simpa using hs⟩

theorem sampleStep4_ne_nil (l : List RGBA) (hl : l ≠ []) :
    sampleStep4 l ≠ [] := by
  match l with
  | [] => exact absurd rfl hl
  | [p] => simp [sampleStep4]
  | [p, q] => simp [sampleStep4]
  | [p, q, r2] => simp [sampleStep4]
  | p :: _ :: _ :: _ :: rest => simp [sampleStep4]

theorem bumpFreq_ne_nil (c : RGBA) : ∀ l : List FreqEntry, bumpFreq l c ≠ [] := by
  intro l
  match l with
  | [] => simp [bumpFreq]
  | e :: rest =>
    unfold bumpFreq
    split <;> simp

theorem colorFreq_ne_nil (pixels : List RGBA) (hp : pixels ≠ []) :
    colorFreq pixels ≠ [] := by
  have haux : ∀ (l : List RGBA) (acc : List FreqEntry), acc ≠ [] →
      l.foldl (fun acc p => bumpFreq acc (roundColor p)) acc ≠ [] := by
    intro l
    induction l with
    | nil => intro acc hacc; exact hacc
    | cons p rest ih =>
      intro acc hacc
      exact ih _ (bumpFreq_ne_nil (roundColor p) acc)
  rcases pixels with _ | ⟨p, rest⟩
  · exact absurd rfl hp
  · unfold colorFreq
    rw [List.foldl_cons]
    exact haux rest _ (bumpFreq_ne_nil (roundColor p) [])

theorem insertDesc_ne_nil (e : FreqEntry) (l : List FreqEntry) :
    insertDesc e l ≠ [] := by
  match l with
  | [] => simp [insertDesc]
  | f :: rest =>
    unfold insertDesc
    split <;> simp

theorem sortDesc_ne_nil (l : List FreqEntry) (hl : l ≠ []) :
    sortDesc l ≠ [] := by
  rcases l with _ | ⟨e, rest⟩
  · exact absurd rfl hl
  · exact insertDesc_ne_nil e (sortDesc rest)

theorem extractPaletteFast_ne_nil (rgba : List RGBA) (k : Nat)
    (hr : rgba ≠ []) (hk : 0 < k) : extractPaletteFast rgba k ≠ [] := by
  unfold extractPaletteFast
  have h1 : sortDesc (colorFreq (sampleStep4 rgba)) ≠ [] :=
    sortDesc_ne_nil _ (colorFreq_ne_nil _ (sampleStep4_ne_nil rgba hr))
  rcases hsd : sortDesc (colorFreq (sampleStep4 rgba)) with _ | ⟨e, rest⟩
  · exact absurd hsd h1
  · rcases k with _ | k
    · exact absurd hk (by omega)
    · simp

/-- C2: every pixel of the quantized image produced by quantizeColors
has the RGB of some palette entry, and its alpha equals the input alpha
at the same pixel.  The downscaled sample list is nonempty whenever the
input image is (sharp resizes a nonempty image to a nonempty one). -/
theorem c2_quantizeColors_palette_closure
    (img downscaled : List RGBA) (k : Nat)
    (hds : downscaled ≠ []) (hk : 0 < k) :
    ∃ q, quantizeColors img downscaled k
        = some (q, extractPaletteFast downscaled k)
      ∧ q.length = img.length
      ∧ ∀ i, i < img.length → ∃ c ∈ extractPaletteFast downscaled k,
          (q.getD i default).r = c.r ∧ (q.getD i default).g = c.g
          ∧ (q.getD i default).b = c.b
          ∧ (q.getD i default).a = (img.getD i default).a := by
  obtain ⟨q, hq, hlen, hspec⟩ :=
    applyPaletteToImage_spec (extractPaletteFast downscaled k)
      (extractPaletteFast_ne_nil downscaled k hds hk) img
  refine ⟨q, ?_, hlen, hspec⟩
  unfold quantizeColors
  rw [hq]
  rfl

/-- Witness for C2 at a concrete one-pixel image and sample list. -/
theorem c2_quantizeColors_palette_closure_witness :
    ([RGBA.mk 0 0 0 255] ≠ ([] : List RGBA)) ∧ 0 < 2
    ∧ ∃ q, quantizeColors [RGBA.mk 10 20 30 40] [RGBA.mk 0 0 0 255] 2
        = some (q, extractPaletteFast [RGBA.mk 0 0 0 255] 2)
      ∧ q.length = [RGBA.mk 10 20 30 40].length
      ∧ ∀ i, i < [RGBA.mk 10 20 30 40].length →
          ∃ c ∈ extractPaletteFast [RGBA.mk 0 0 0 255] 2,
          (q.getD i default).r = c.r ∧ (q.getD i default).g = c.g
          ∧ (q.getD i default).b = c.b
          ∧ (q.getD i default).a = ([RGBA.mk 10 20 30 40].getD i default).a :=
  ⟨by simp, by norm_num,
   c2_quantizeColors_palette_closure [RGBA.mk 10 20 30 40] [RGBA.mk 0 0 0 255] 2
     (by simp) (by norm_num)⟩

/-- Witness for C9 at a concrete 2×2 image with one set pixel. -/
theorem c9_distanceTransform_witness :
    |dtDv [255, 0, 0, 255] 2 2 (idx 2 1 0) - dtDv [255, 0, 0, 255] 2 2 (idx 2 0 0)| ≤ 1
    ∧ (dtDv [255, 0, 0, 255] 2 2 (idx 2 0 0) = 0
        ↔ 0 < [255, 0, 0, 255].getD (idx 2 0 0) 0) :=
  ⟨(c9_distanceTransform_zero_set_and_adjacent_bounds [255, 0, 0, 255] 2 2 0 0
      (by norm_num) (by norm_num)).2.1 (by norm_num),
   (c9_distanceTransform_zero_set_and_adjacent_bounds [255, 0, 0, 255] 2 2 0 0
      (by norm_num) (by norm_num)).1⟩

theorem mem_insertDesc (x e : FreqEntry) :
    ∀ l : List FreqEntry, x ∈ insertDesc e l ↔ x = e ∨ x ∈ l := by
  intro l
  induction l with
  | nil => simp [insertDesc]
  | cons f rest ih =>
    unfold insertDesc
    split
    · simp only [List.mem_cons, ih]
      tauto
    · simp only [List.mem_cons]

theorem insertDesc_perm (e : FreqEntry) :
    ∀ l : List FreqEntry, (insertDesc e l).Perm (e :: l) := by
  intro l
  induction l with
  | nil => exact List.Perm.refl _
  | cons f rest ih =>
    unfold insertDesc
    split
    · exact List.Perm.trans (List.Perm.cons f ih) (List.Perm.swap e f rest)
    · exact List.Perm.refl _

theorem sortDesc_perm : ∀ l : List FreqEntry, (sortDesc l).Perm l := by
  intro l
  induction l with
  | nil => exact List.Perm.refl _
  | cons e rest ih =>
    exact List.Perm.trans (insertDesc_perm e (sortDesc rest)) (List.Perm.cons e ih)

theorem bumpFreq_color_of_mem (c : RGBA) :
    ∀ (l : List FreqEntry) (f : FreqEntry), f ∈ bumpFreq l c →
      f.color = c ∨ ∃ e ∈ l, f.color = e.color := by
  intro l
  induction l with
  | nil =>
    intro f hf
    simp [bumpFreq] at hf
    rw [hf]
    exact Or.inl rfl
  | cons e rest ih =>
    intro f hf
    unfold bumpFreq at hf
    split at hf
    · rcases List.mem_cons.mp hf with rfl | hf
      · exact Or.inr ⟨e, List.mem_cons_self e rest, rfl⟩
      · exact Or.inr ⟨f, List.mem_cons_of_mem e hf, rfl⟩
    · rcases List.mem_cons.mp hf with rfl | hf
      · exact Or.inr ⟨f, List.mem_cons_self f rest, rfl⟩
      · rcases ih f hf with hc | ⟨e2, he2, hc⟩
        · exact Or.inl hc
        · exact Or.inr ⟨e2, List.mem_cons_of_mem e he2, hc⟩

theorem bumpFreq_pairwise (c : RGBA) :
    ∀ l : List FreqEntry, l.Pairwise (fun e f => e.color ≠ f.color) →
      (bumpFreq l c).Pairwise (fun e f => e.color ≠ f.color) := by
  intro l
  induction l with
  | nil => intro _; simp [bumpFreq]
  | cons e rest ih =>
    intro hl
    rw [List.pairwise_cons] at hl
    unfold bumpFreq
    split
    · rw [List.pairwise_cons]
      exact ⟨hl.1, hl.2⟩
    · rw [List.pairwise_cons]
      refine ⟨?_, ih hl.2⟩
      intro f hf
      rcases bumpFreq_color_of_mem c rest f hf with hc | ⟨e2, he2, hc⟩
      · rw [hc]
        intro hec
        exact absurd hec (by assumption)
      · rw [hc]
        exact hl.1 e2 he2

theorem colorFreq_pairwise (pixels : List RGBA) :
    (colorFreq pixels).Pairwise (fun e f => e.color ≠ f.color) := by
  have haux : ∀ (l : List RGBA) (acc : List FreqEntry),
      acc.Pairwise (fun e f => e.color ≠ f.color) →
      (l.foldl (fun acc p => bumpFreq acc (roundColor p)) acc).Pairwise
        (fun e f => e.color ≠ f.color) := by
    intro l
    induction l with
    | nil => intro acc hacc; exact hacc
    | cons p rest ih =>
      intro acc hacc
      exact ih _ (bumpFreq_pairwise (roundColor p) acc hacc)
  exact haux pixels [] (List.Pairwise.nil)

theorem insertDesc_sorted (e : FreqEntry) :
    ∀ l : List FreqEntry, l.Pairwise (fun a b => b.count ≤ a.count) →
      (insertDesc e l).Pairwise (fun a b => b.count ≤ a.count) := by
  intro l
  induction l with
  | nil => intro _; simp [insertDesc]
  | cons f rest ih =>
    intro hl
    rw [List.pairwise_cons] at hl
    unfold insertDesc
    split
    · rw [List.pairwise_cons]
      refine ⟨?_, ih hl.2⟩
      intro x hx
      rcases (mem_insertDesc x e rest).mp hx with rfl | hx
      · omega
      · exact hl.1 x hx
    · rw [List.pairwise_cons]
      refine ⟨?_, List.pairwise_cons.mpr ⟨hl.1, hl.2⟩⟩
      intro x hx
      rcases List.mem_cons.mp hx with rfl | hx
      · omega
      · have := hl.1 x hx
        omega

theorem sortDesc_sorted :
    ∀ l : List FreqEntry,
      (sortDesc l).Pairwise (fun a b => b.count ≤ a.count) := by
  intro l
  induction l with
  | nil => simp [sortDesc]
  | cons e rest ih => exact insertDesc_sorted e (sortDesc rest) ih

theorem insertDesc_filter (e : FreqEntry) (c : Nat) :
    ∀ l : List FreqEntry,
      (insertDesc e l).filter (fun f => f.count = c)
        = if e.count = c then e :: l.filter (fun f => f.count = c)
          else l.filter (fun f => f.count = c) := by
  intro l
  induction l with
  | nil =>
    unfold insertDesc
    by_cases hec : e.count = c
    · simp [List.filter_cons, hec]
    · simp [List.filter_cons, hec]
  | cons f rest ih =>
    unfold insertDesc
    split
    · rename_i hlt
      by_cases hfc : f.count = c
      · have hec : ¬ (e.count = c) := by omega
        simp only [List.filter_cons, ih]
        simp [hfc, hec]
      · simp only [List.filter_cons, ih]
        simp [hfc]
    · by_cases hec : e.count = c
      · simp [List.filter_cons, hec]
      · simp [List.filter_cons, hec]

theorem sortDesc_filter (c : Nat) :
    ∀ l : List FreqEntry,
      (sortDesc l).filter (fun f => f.count = c)
        = l.filter (fun f => f.count = c) := by
  intro l
  induction l with
  | nil => rfl
  | cons e rest ih =>
    show (insertDesc e (sortDesc rest)).filter (fun f => f.count = c) = _
    rw [insertDesc_filter e c (sortDesc rest), ih]
    by_cases hec : e.count = c
    · simp [List.filter_cons, hec]
    · simp [List.filter_cons, hec]

theorem sortDesc_head_max (l : List FreqEntry) (e0 : FreqEntry)
    (h0 : (sortDesc l).head? = some e0) :
    ∀ e ∈ l, e.count ≤ e0.count := by
  intro e he
  have hmem : e ∈ sortDesc l := ((sortDesc_perm l).mem_iff).mpr he
  rcases hsd : sortDesc l with _ | ⟨f, rest⟩
  · rw [hsd] at hmem
    exact absurd hmem (List.not_mem_nil e)
  · rw [hsd] at h0
    have hf : f = e0 := by simpa using h0
    subst hf
    have hsorted := sortDesc_sorted l
    rw [hsd, List.pairwise_cons] at hsorted
    rw [hsd] at hmem
    rcases List.mem_cons.mp hmem with rfl | hmem
    · exact le_refl _
    · exact hsorted.1 e hmem

/-- C8: the palette from extractPaletteFast has pairwise-distinct
(r,g,b,a) entries; the sorted frequency list is descending by count, its
head has maximal count, the palette head is its color, and entries of
equal count keep the insertion order of the frequency map (stability,
stated per count value via filter). -/
theorem c8_extractPaletteFast_order_and_uniqueness
    (rgba : List RGBA) (k : Nat) :
    (extractPaletteFast rgba k).Pairwise (· ≠ ·)
    ∧ (sortDesc (colorFreq (sampleStep4 rgba))).Pairwise
        (fun a b => b.count ≤ a.count)
    ∧ (∀ e0, (sortDesc (colorFreq (sampleStep4 rgba))).head? = some e0 →
        ∀ e ∈ colorFreq (sampleStep4 rgba), e.count ≤ e0.count)
    ∧ (0 < k → (extractPaletteFast rgba k).head?
        = ((sortDesc (colorFreq (sampleStep4 rgba))).head?).map (fun e => e.color))
    ∧ ∀ c, (sortDesc (colorFreq (sampleStep4 rgba))).filter (fun e => e.count = c)
        = (colorFreq (sampleStep4 rgba)).filter (fun e => e.count = c) := by
  refine ⟨?_, sortDesc_sorted _, sortDesc_head_max _, ?_, fun c => sortDesc_filter c _⟩
  · have h1 : (colorFreq (sampleStep4 rgba)).Pairwise
        (fun e f => e.color ≠ f.color) := colorFreq_pairwise _
    have h2 : (sortDesc (colorFreq (sampleStep4 rgba))).Pairwise
        (fun e f => e.color ≠ f.color) :=
      (List.Perm.pairwise_iff (fun h => Ne.symm h) (sortDesc_perm _)).mpr h1
    have h3 : ((sortDesc (colorFreq (sampleStep4 rgba))).take k).Pairwise
        (fun e f => e.color ≠ f.color) :=
      List.Pairwise.sublist (List.take_sublist k _) h2
    unfold extractPaletteFast
    exact (List.pairwise_map).mpr h3
  · intro hk
    rcases hsd : sortDesc (colorFreq (sampleStep4 rgba)) with _ | ⟨e, rest⟩
    · simp [extractPaletteFast, hsd]
    · rcases k with _ | k
      · exact absurd hk (by omega)
      · simp [extractPaletteFast, hsd]

/-- Witness for C8 at a concrete 12-pixel image (samples: two black
pixels and one dark-red pixel). -/
theorem c8_extractPaletteFast_order_and_uniqueness_witness :
    (extractPaletteFast
        ((List.range 12).map (fun i => RGBA.mk (if i / 4 = 1 then 32 else 0) 0 0 255))
        2).Pairwise (· ≠ ·)
    ∧ (FreqEntry.mk (RGBA.mk 32 0 0 255) 1).count
        ≤ (FreqEntry.mk (RGBA.mk 0 0 0 255) 2).count :=
  ⟨(c8_extractPaletteFast_order_and_uniqueness
      ((List.range 12).map (fun i => RGBA.mk (if i / 4 = 1 then 32 else 0) 0 0 255))
      2).1,
   (c8_extractPaletteFast_order_and_uniqueness
      ((List.range 12).map (fun i => RGBA.mk (if i / 4 = 1 then 32 else 0) 0 0 255))
      2).2.2.1 (FreqEntry.mk (RGBA.mk 0 0 0 255) 2) (by decide)
      (FreqEntry.mk (RGBA.mk 32 0 0 255) 1) (by decide)⟩

/-- C3 amended: a palette request of `k ≤ #distinct rounded sample
colors` yields exactly `k` palette entries, and since `paletteSize`
never exceeds `maxColors`, the `Reduced colors to k` warning is never
emitted — computeWarnings returns only the thin-stroke and edge-density
components. -/
theorem c3_palette_clamp_and_no_reduced_warning
    (img : List RGBA) (k : Nat) (am : List Nat) (w h tT : Nat)
    (em : Option (List Nat))
    (hk : k ≤ (colorFreq (sampleStep4 img)).length) :
    (extractPaletteFast img k).length = k
    ∧ computeWarnings am w h tT em (some k)
        (some (extractPaletteFast img k).length)
      = thinStrokeWarning am w h tT ++ denseWarning em := by
  have hlen : (extractPaletteFast img k).length = k := by
    unfold extractPaletteFast
    rw [List.length_map, List.length_take, (sortDesc_perm _).length_eq]
    omega
  refine ⟨hlen, ?_⟩
  unfold computeWarnings reducedWarning
  rw [hlen]
  simp

/-- A 7×4 image whose 7 sampled pixels carry 7 distinct rounded colors. -/
def paletteClampImage : List RGBA :=
  (List.range 28).map (fun i => RGBA.mk (32 * (i / 4)) 0 0 255)

/-- Counterexample for C3 as stated: with more than 6 distinct rounded
colors and maxColors = 6, paletteSize is 6 but the warning list does not
contain `Reduced colors to 6` (paletteSize > maxColors never holds). -/
theorem c3_counterexample_no_reduced_warning :
    (extractPaletteFast paletteClampImage 6).length = 6
    ∧ "Reduced colors to 6"
        ∉ computeWarnings (List.replicate 28 255) 7 4 3 none (some 6) (some 6) := by
  refine ⟨by decide, ?_⟩
  intro hmem
  rcases List.mem_append.mp hmem with h12 | h3
  · rcases List.mem_append.mp h12 with h1 | h2
    · unfold thinStrokeWarning at h1
      split at h1
      · rw [List.mem_singleton] at h1
        exact absurd h1 (by decide)
      · exact absurd h1 (List.not_mem_nil _)
    · simp [denseWarning] at h2
  · simp [reducedWarning] at h3

/-- Witness for the amended C3 at the concrete 7-color image. -/
theorem c3_palette_clamp_witness :
    6 ≤ (colorFreq (sampleStep4 paletteClampImage)).length
    ∧ (extractPaletteFast paletteClampImage 6).length = 6
    ∧ computeWarnings (List.replicate 28 255) 7 4 3 none (some 6)
        (some (extractPaletteFast paletteClampImage 6).length)
      = thinStrokeWarning (List.replicate 28 255) 7 4 3 ++ denseWarning none :=
  ⟨by decide,
   (c3_palette_clamp_and_no_reduced_warning paletteClampImage 6
      (List.replicate 28 255) 7 4 3 none (by decide)).1,
   (c3_palette_clamp_and_no_reduced_warning paletteClampImage 6
      (List.replicate 28 255) 7 4 3 none (by decide)).2⟩

/-- The dashing loop of detectEdges: `stitchLen = max(2, threadThickness)`,
pixel kept (255) iff the underlying edge bit is set and
`⌊x / stitchLen⌋` is even; all other pixels are 0. -/
def dashedEdges (edgeMap : List Nat) (w h tT : Nat) : List Nat :=
  (List.range (w * h)).map (fun i =>
    if edgeMap.getD i 0 ≠ 0 then
      (if (i % w) / (max 2 tT) % 2 = 0 then 255 else 0)
    else 0)

theorem getD_map_range (n i : Nat) (f : Nat → Nat) (d : Nat) (hi : i < n) :
    ((List.range n).map f).getD i d = f i := by
  rw [List.getD_eq_getElem _ _ (by simpa using hi)]
  simp

/-- C4 amended: for thread thickness `1 ≤ T ≤ 10` the dashed edge output
keeps a pixel at column x iff the edge bit is set and
`⌊x / max(2, T)⌋ mod 2 = 0` — the divisor is `max(2, T)`, not `T`. -/
theorem c4_dashedEdges_keep_iff
    (edgeMap : List Nat) (w h tT x y : Nat)
    (_hT1 : 1 ≤ tT) (_hT10 : tT ≤ 10) (hx : x < w) (hy : y < h) :
    (dashedEdges edgeMap w h tT).getD (idx w x y) 0 ≠ 0
      ↔ (edgeMap.getD (idx w x y) 0 ≠ 0 ∧ x / (max 2 tT) % 2 = 0) := by
  have hi : idx w x y < w * h := idx_lt w h x y hx hy
  unfold dashedEdges
  rw [getD_map_range _ _ _ _ hi, idx_mod w x y hx]
  split_ifs with he hev
  · exact ⟨fun _ => ⟨he, hev⟩, fun _ => by norm_num⟩
  · exact ⟨fun hc => absurd rfl hc, fun hand => absurd hand.2 hev⟩
  · exact ⟨fun hc => absurd rfl hc, fun hand => absurd hand.1 he⟩

/-- Witness for the amended C4 at a concrete 2×1 edge map with T = 2. -/
theorem c4_dashedEdges_keep_iff_witness :
    (dashedEdges [255, 255] 2 1 2).getD (idx 2 1 0) 0 ≠ 0
      ↔ ([255, 255].getD (idx 2 1 0) 0 ≠ 0 ∧ 1 / (max 2 2) % 2 = 0) :=
  c4_dashedEdges_keep_iff [255, 255] 2 1 2 1 0
    (by norm_num) (by norm_num) (by norm_num) (by norm_num)

/-- Counterexample for C4 as stated: with T = 1 the code dashes with
stitch length `max(2, 1) = 2`, keeping column 1 although
`⌊1/1⌋ mod 2 = 1` says it should be dropped. -/
theorem c4_counterexample_thickness_one :
    ¬ ((dashedEdges [255, 255] 2 1 1).getD (idx 2 1 0) 0 ≠ 0
        ↔ ([255, 255].getD (idx 2 1 0) 0 ≠ 0 ∧ 1 / 1 % 2 = 0)) := by
  decide

/-- binsFromGradients of utils: the raw bin index
`Math.floor(atan2-angle · numBins / π)` is floating-point arithmetic on
an external gradient buffer and enters as the integer-valued function
`raw`; the clamp `if (b < 0) b = 0; if (b >= numBins) b = numBins - 1`
is modelled exactly. -/
def binsFromGradients (raw : Nat → Int) (len numBins : Nat) : List Nat :=
  (List.range len).map (fun i =>
    (if (numBins : Int) ≤ (if raw i < 0 then 0 else raw i)
      then (numBins : Int) - 1
      else (if raw i < 0 then 0 else raw i)).toNat)

/-- upscaleNearest of utils: nearest-neighbour upscale
`sx = min(w-1, ⌊x·w/W⌋)`, `sy = min(h-1, ⌊y·h/H⌋)` (the pipeline's sharp
`kernel: nearest` resize realizes the same selection). -/
def upscaleNearest (src : List Nat) (w h bigW bigH : Nat) : List Nat :=
  if bigW = w ∧ bigH = h then src
  else (List.range (bigW * bigH)).map (fun i =>
    src.getD
      (min (h - 1) (i / bigW * h / bigH) * w + min (w - 1) (i % bigW * w / bigW))
      0)

/-- Bin count selected by computeOrientation:
`binned-8 → (logo 4, photo 6)`, otherwise (lic) `(logo 8, photo 12)`. -/
def activeBinCount (orientationMethod mode : String) : Nat :=
  if orientationMethod = "binned-8" then (if mode = "logo" then 4 else 6)
  else (if mode = "logo" then 8 else 12)

/-- The orientation-bins raster of computeOrientation: bins at analysis
resolution, upscaled to image resolution by nearest neighbour. -/
def computeOrientationBins (raw : Nat → Int) (dsW dsH bigW bigH : Nat)
    (orientationMethod mode : String) : List Nat :=
  upscaleNearest
    (binsFromGradients raw (dsW * dsH) (activeBinCount orientationMethod mode))
    dsW dsH bigW bigH

theorem activeBinCount_pos (orientationMethod mode : String) :
    0 < activeBinCount orientationMethod mode := by
  unfold activeBinCount
  split_ifs <;> norm_num

theorem binsFromGradients_lt (raw : Nat → Int) (len numBins : Nat)
    (hn : 0 < numBins) (v : Nat) (hv : v ∈ binsFromGradients raw len numBins) :
    v < numBins := by
  unfold binsFromGradients at hv
  rw [List.mem_map] at hv
  obtain ⟨i, _, hi⟩ := hv
  rw [← hi]
  split_ifs with hcl hneg hneg <;> omega

theorem getD_mem_or_default (l : List Nat) (i d : Nat) :
    l.getD i d ∈ l ∨ l.getD i d = d := by
  rcases Nat.lt_or_ge i l.length with hi | hi
  · rw [List.getD_eq_getElem l d hi]
    exact Or.inl (List.getElem_mem hi)
  · rw [List.getD_eq_default l d hi]
    exact Or.inr rfl

theorem upscaleNearest_mem (src : List Nat) (w h bigW bigH : Nat) (v : Nat)
    (hv : v ∈ upscaleNearest src w h bigW bigH) : v ∈ src ∨ v = 0 := by
  unfold upscaleNearest at hv
  split at hv
  · exact Or.inl hv
  · rw [List.mem_map] at hv
    obtain ⟨i, _, hi⟩ := hv
    rw [← hi]
    exact getD_mem_or_default src _ 0

/-- C5: every byte of the upscaled orientation-bins raster is strictly
below the active bin count (binned-8: logo 4, photo 6; lic: logo 8,
photo 12), for every gradient input, analysis size and output size. -/
theorem c5_orientationBins_below_bin_count
    (raw : Nat → Int) (dsW dsH bigW bigH : Nat)
    (orientationMethod mode : String) (v : Nat)
    (hv : v ∈ computeOrientationBins raw dsW dsH bigW bigH orientationMethod mode) :
    v < activeBinCount orientationMethod mode := by
  rcases upscaleNearest_mem _ _ _ _ _ v hv with hmem | hzero
  · exact binsFromGradients_lt raw (dsW * dsH) _
      (activeBinCount_pos orientationMethod mode) v hmem
  · rw [hzero]
    exact activeBinCount_pos orientationMethod mode

/-- Witness for C5: a 1×1 logo/binned analysis with raw bin value 5 is
clamped into `[0, 3]`. -/
theorem c5_orientationBins_below_bin_count_witness :
    3 ∈ computeOrientationBins (fun _ => 5) 1 1 1 1 "binned-8" "logo"
    ∧ 3 < activeBinCount "binned-8" "logo" :=
  ⟨by decide,
   c5_orientationBins_below_bin_count (fun _ => 5) 1 1 1 1 "binned-8" "logo" 3
     (by decide)⟩

/-- `Math.round` for the nonnegative arguments used here. -/
def jsRound (q : ℚ) : Int := (q + 1/2).floor

/-- A generated thread tile is determined by its size, rotation angle,
stripe thickness and stripe spacing
(`spacing = max(2, round(thickness·1.2/density))`); the canvas raster
itself is external. -/
structure ThreadTexture where
  size : Nat
  angleDeg : ℚ
  thickness : Nat
  spacing : Nat
deriving DecidableEq

def threadSpacing (thickness : Nat) (density : ℚ) : Nat :=
  max 2 (jsRound ((thickness : ℚ) * (12 / 10) / density)).toNat

def createThreadTextureFast (size : Nat) (angle : ℚ) (thickness : Nat)
    (density : ℚ) : ThreadTexture :=
  ⟨size, angle, thickness, threadSpacing thickness density⟩

/-- generateThreadTexturesFast: 6 bins of 64×64 tiles, bin i rotated by
`i·180/6` degrees. -/
def generateThreadTexturesFast (threadThickness : Nat) (density : ℚ) :
    List ThreadTexture :=
  (List.range 6).map (fun binIndex =>
    createThreadTextureFast 64 ((binIndex : ℚ) * 180 / 6) threadThickness density)

/-- A generated hatch tile: the transparent tile for `none`, a diagonal
tile or a cross tile with line spacing `max(3, round(4/density))`. -/
inductive HatchPattern where
  | transparentTile : HatchPattern
  | diagonalTile (spacing : Nat) : HatchPattern
  | crossTile (spacing : Nat) : HatchPattern
deriving DecidableEq

def hatchSpacing (density : ℚ) : Nat := max 3 (jsRound (4 / density)).toNat

/-- generateHatchPatternsFast: an `if/else-if` chain with no final
`else` — an unrecognized hatch value falls through and yields an empty
pattern list, with no error raised. -/
def generateHatchPatternsFast (hatchType : String) (density : ℚ) :
    List HatchPattern :=
  if hatchType = "none" then [HatchPattern.transparentTile]
  else if hatchType = "diagonal" then [HatchPattern.diagonalTile (hatchSpacing density)]
  else if hatchType = "cross" then [HatchPattern.crossTile (hatchSpacing density)]
  else []

structure TextureResult where
  threadTextures : List ThreadTexture
  hatchPatterns : List HatchPattern
  threadThickness : Nat
deriving DecidableEq

/-- `density = max(0.5, min(2, densityScale))` of generateTextures. -/
def clampDensity (densityScale : ℚ) : ℚ := max (1 / 2) (min 2 densityScale)

/-- generateTextures of textures.ts.  The body is wrapped in try/catch
and rethrows as `Texture generation failed`, but nothing in it throws
for any hatch string; the process-wide cache only memoizes this same
pure value, so it is omitted. -/
def generateTextures (threadThickness : Nat) (hatch : String)
    (densityScale : ℚ) : Except String TextureResult :=
  Except.ok
    ⟨generateThreadTexturesFast threadThickness (clampDensity densityScale),
     generateHatchPatternsFast hatch (clampDensity densityScale),
     threadThickness⟩

/-- Counterexample for C6 as stated: an invalid hatch value does not
raise `unknown hatch`; generateTextures succeeds with an empty hatch
pattern list. -/
theorem c6_counterexample_no_unknown_hatch_error :
    generateTextures 3 "bogus" 1 ≠ Except.error "unknown hatch"
    ∧ generateTextures 3 "bogus" 1
      = Except.ok ⟨generateThreadTexturesFast 3 (clampDensity 1), [], 3⟩ := by
  have hh : generateHatchPatternsFast "bogus" (clampDensity 1) = [] := by
    unfold generateHatchPatternsFast
    rw [if_neg (by decide), if_neg (by decide), if_neg (by decide)]
  refine ⟨?_, ?_⟩
  · unfold generateTextures
    intro hcontra
    exact Except.noConfusion hcontra
  · unfold generateTextures
    rw [hh]

/-- C6 amended: texture synthesis is total — it returns `ok` for every
hatch string and density — and a hatch value outside
{none, diagonal, cross} yields an empty hatch-pattern list instead of an
`unknown hatch` error. -/
theorem c6_generateTextures_total_empty_on_unknown
    (threadThickness : Nat) (hatch : String) (densityScale : ℚ)
    (h1 : hatch ≠ "none") (h2 : hatch ≠ "diagonal") (h3 : hatch ≠ "cross") :
    generateTextures threadThickness hatch densityScale
      = Except.ok
          ⟨generateThreadTexturesFast threadThickness (clampDensity densityScale),
           [], threadThickness⟩
    ∧ ∀ hatch2 : String, ∃ r,
        generateTextures threadThickness hatch2 densityScale = Except.ok r := by
  refine ⟨?_, fun hatch2 => ⟨_, rfl⟩⟩
  unfold generateTextures generateHatchPatternsFast
  rw [if_neg h1, if_neg h2, if_neg h3]

/-- Witness for the amended C6 at hatch value `bogus`. -/
theorem c6_generateTextures_total_empty_on_unknown_witness :
    generateTextures 5 "bogus" 1
      = Except.ok ⟨generateThreadTexturesFast 5 (clampDensity 1), [], 5⟩
    ∧ ∀ hatch2 : String, ∃ r, generateTextures 5 hatch2 1 = Except.ok r :=
  c6_generateTextures_total_empty_on_unknown 5 "bogus" 1
    (by decide) (by decide) (by decide)

/-- One LCG update of seededRandom: `s = (s·1664525 + 1013904223) >>> 0`. -/
def seededRandomNext (s : Nat) : Nat := (s * 1664525 + 1013904223) % 2 ^ 32

/-- PRNG state after `n` calls, starting from `seed >>> 0`. -/
def seededRandomState (seed : Nat) : Nat → Nat
  | 0 => seed % 2 ^ 32
  | n + 1 => seededRandomNext (seededRandomState seed n)

/-- Value returned by a call whose post-update state is `s`:
`(s & 0xfffffff) / 0xfffffff`, i.e. the low 28 bits over `2^28 - 1`. -/
def seededRandomValue (s : Nat) : ℚ :=
  ((s % 2 ^ 28 : Nat) : ℚ) / ((2 ^ 28 - 1 : Nat) : ℚ)

/-- Counterexample for C7 as stated: from seed 116766496 the first call
returns exactly 1, so the value is not in [0, 1) (and is read from the
low 28 bits, not the high bits). -/
theorem c7_counterexample_value_reaches_one :
    seededRandomValue (seededRandomState 116766496 1) = 1
    ∧ ¬ (seededRandomValue (seededRandomState 116766496 1) < 1) := by
  have hs : seededRandomState 116766496 1 % 2 ^ 28 = 2 ^ 28 - 1 := by decide
  have hv : seededRandomValue (seededRandomState 116766496 1) = 1 := by
    unfold seededRandomValue
    rw [hs]
    norm_num
  exact ⟨hv, by rw [hv]; exact lt_irrefl 1⟩

/-- C7 amended: the state update is
`s = (s·1664525 + 1013904223) mod 2^32` on every call, and every value is
`(s mod 2^28) / (2^28 - 1)` — a rational in the closed interval [0, 1],
derived from the low 28 bits of the state. -/
theorem c7_seededRandom_update_and_range (seed n : Nat) :
    seededRandomState seed (n + 1)
      = (seededRandomState seed n * 1664525 + 1013904223) % 2 ^ 32
    ∧ 0 ≤ seededRandomValue (seededRandomState seed (n + 1))
    ∧ seededRandomValue (seededRandomState seed (n + 1)) ≤ 1 := by
  refine ⟨rfl, ?_, ?_⟩
  · unfold seededRandomValue
    apply div_nonneg (Nat.cast_nonneg _) (Nat.cast_nonneg _)
  · unfold seededRandomValue
    rw [div_le_one (by norm_num)]
    have hlt : seededRandomState seed (n + 1) % 2 ^ 28 < 2 ^ 28 :=
      Nat.mod_lt _ (by norm_num)
    exact_mod_cast Nat.le_of_lt_succ (by omega)

/-- The compositor's output handed to the background stage. -/
structure Composited where
  buffer : List Nat
  width : Nat
  height : Nat
deriving DecidableEq

/-- The record applyBackgroundLocal returns. -/
structure BackgroundResult where
  buffer : List Nat
  mime : String
  width : Nat
  height : Nat
deriving DecidableEq

/-- The background option: `{type, hex?, name?}` or absent. -/
structure BackgroundChoice where
  bgType : String
  hex : Option String
  name : Option String
deriving DecidableEq

/-- The options fields applyBackgroundLocal reads. -/
structure BgOptions where
  preserveTransparency : Bool
  background : Option BackgroundChoice
deriving DecidableEq

/-- applyBackgroundLocal of embroidery.ts: with preserveTransparency the
composited buffer is returned as-is with mime `image/png`; otherwise a
background is built and composited under it through sharp, which is
external and enters as the parameter `compositeOverBackground`. -/
def applyBackgroundLocal
    (compositeOverBackground : Composited → BgOptions → List Nat)
    (composited : Composited) (options : BgOptions) : BackgroundResult :=
  if options.preserveTransparency then
    ⟨composited.buffer, "image/png", composited.width, composited.height⟩
  else
    ⟨compositeOverBackground composited options, "image/png",
      composited.width, composited.height⟩

/-- C10: with `preserveTransparency = true` the background stage returns
the compositor's buffer byte-identically, with the same dimensions and
mime `image/png`, for every background option and every external
compositing function. -/
theorem c10_applyBackground_preserves_composite
    (compositeOverBackground : Composited → BgOptions → List Nat)
    (composited : Composited) (options : BgOptions)
    (hp : options.preserveTransparency = true) :
    applyBackgroundLocal compositeOverBackground composited options
      = ⟨composited.buffer, "image/png", composited.width, composited.height⟩ := by
  unfold applyBackgroundLocal
  rw [hp]
  simp

/-- Witness for C10 at a concrete composited buffer and background
option. -/
theorem c10_applyBackground_preserves_composite_witness :
    applyBackgroundLocal (fun _ _ => []) (Composited.mk [9, 8, 7] 3 1)
      (BgOptions.mk true (some (BackgroundChoice.mk "color" (some "#102030") none)))
      = BackgroundResult.mk [9, 8, 7] "image/png" 3 1 :=
  c10_applyBackground_preserves_composite (fun _ _ => [])
    (Composited.mk [9, 8, 7] 3 1)
    (BgOptions.mk true (some (BackgroundChoice.mk "color" (some "#102030") none)))
    rfl

end EmbroideryFilter
